import Mathlib

/-!
Verification of the routing/dispatch engine of the Ambulance_Routing
repository against its specification.

The Python modules are shallowly embedded:
* `backend/app/core/graph/graph_manager.py`   → `GraphManager`, `build_graph_for_city`
* `backend/app/core/graph/shortest_path.py`   → `shortest_path_and_distance`
* `backend/app/core/routing/hospital_select.py` → `find_nearest_hospital`
* `backend/app/core/routing/ambulance_assignment.py` → `select_best_ambulance_for_request`
* `backend/app/core/routing/traffic_manager.py` → `apply_dynamic_traffic`
* `backend/app/core/routing/simulation.py`     → `simulate_ambulance_movement`

Python dictionaries are embedded as functions into `Option`, Python floats as
rationals (`ℚ`), Python `datetime` values as natural numbers of UTC seconds,
and the `heapq` min-heap as a list from which `popMin` removes a
lexicographically least element — which is exactly the observable behaviour
of `heapq.heappush`/`heappop` on `(float, int)` pairs.
-/

namespace AmbulanceRouting

/-! ## Data model (`app/db/models.py`, fields used by the routing core).

`is_active` is `Option Bool` because the column is nullable and
`graph_manager._compute_effective_weight` tests `edge.is_active is False`,
which is true only for a genuine `False`, not for NULL. -/

structure EdgeRec where
  id : ℕ
  from_node : ℕ
  to_node : ℕ
  weight : ℚ
  adjusted_weight : Option ℚ
  distance : Option ℚ
  is_active : Option Bool
  deriving DecidableEq, Repr

structure NodeRec where
  id : ℕ
  lat : ℚ
  lon : ℚ
  type : String
  city_id : Option ℕ
  deriving DecidableEq, Repr

/-- Adjacency entry `(neighbor_node_id, effective_weight, edge_id)`
(`graph_manager.py`, line 36). -/
abbrev AdjEntry := ℕ × ℚ × ℕ

/-- `GraphManager` (graph_manager.py, lines 39-84): an adjacency dict
`node_id -> list of (neighbor, weight, edge_id)` plus an `edge_id -> Edge`
lookup.  The dict is embedded as its key list together with a value
function; the value function is only observable (through `neighbors`)
at the keys. -/
structure GraphManager where
  adjKeys : List ℕ
  adjList : ℕ → List AdjEntry
  edges : ℕ → Option EdgeRec

/-- `GraphManager.has_node` (graph_manager.py, lines 81-84). -/
def GraphManager.has_node (g : GraphManager) (v : ℕ) : Prop :=
  v ∈ g.adjKeys

instance (g : GraphManager) (v : ℕ) : Decidable (g.has_node v) :=
  inferInstanceAs (Decidable (v ∈ g.adjKeys))

/-- `GraphManager.neighbors` (graph_manager.py, lines 71-79):
`self.adjacency.get(node_id, [])`. -/
def GraphManager.neighbors (g : GraphManager) (v : ℕ) : List AdjEntry :=
  if v ∈ g.adjKeys then g.adjList v else []

/-- `GraphManager.get_edge` (graph_manager.py, lines 61-69). -/
def GraphManager.get_edge (g : GraphManager) (u v : ℕ) : Option EdgeRec :=
  match (g.neighbors u).find? (fun e => e.1 = v) with
  | some e => g.edges e.2.2
  | none => none

/-- All adjacency weights of the view are non-negative (the hypothesis of
the shortest-path claims; spec §3 requires effective weights ≥ 0). -/
def NonnegWeights (g : GraphManager) : Prop :=
  ∀ u : ℕ, ∀ e ∈ g.neighbors u, 0 ≤ e.2.1

/-- Neighbor-closure invariant of a Graph View (spec §3: every adjacency
entry's neighbor is within the view's vertex set). -/
def ClosedView (g : GraphManager) : Prop :=
  ∀ u : ℕ, ∀ e ∈ g.neighbors u, g.has_node e.1

/-! ## Directed paths and their costs

A path is grown edge by edge from the source side; `PathCost g u t c`
states that some path of adjacency entries leads from `u` to `t` with
total effective weight `c` (parallel entries may carry different weights,
so this is a relation on costs, not a function of the vertex sequence). -/

inductive PathCost (g : GraphManager) : ℕ → ℕ → ℚ → Prop
  | single (v : ℕ) : PathCost g v v 0
  | cons {u v t : ℕ} {w c : ℚ} {eid : ℕ} :
      (v, w, eid) ∈ g.neighbors u → PathCost g v t c → PathCost g u t (w + c)

/-- `t` is reachable from `s` through the adjacency structure of `g`. -/
def Reachable (g : GraphManager) (s t : ℕ) : Prop :=
  ∃ c, PathCost g s t c

theorem PathCost.cost_nonneg {g : GraphManager} (hw : NonnegWeights g)
    {u t : ℕ} {c : ℚ} (h : PathCost g u t c) : 0 ≤ c := by
  induction h with
  | single v => exact le_refl 0
  | cons he _ ih => exact add_nonneg (hw _ _ he) ih

theorem PathCost.snoc {g : GraphManager} {s u z : ℕ} {c w : ℚ} {eid : ℕ}
    (h : PathCost g s u c) (he : (z, w, eid) ∈ g.neighbors u) :
    PathCost g s z (c + w) := by
  induction h with
  | single v =>
    have := PathCost.cons he (PathCost.single z)
    simpa [add_comm] using this
  | cons he0 _ ih =>
    have := PathCost.cons he0 (ih he)
    simpa [add_assoc] using this

/-! ## The lazy-deletion min-heap

`heapq` with `(float, int)` entries pops a lexicographically least pair.
`popMin` returns such a pair (the first occurrence) and the remaining
entries. -/

def pairLe (a b : ℚ × ℕ) : Prop :=
  a.1 < b.1 ∨ (a.1 = b.1 ∧ a.2 ≤ b.2)

instance (a b : ℚ × ℕ) : Decidable (pairLe a b) :=
  inferInstanceAs (Decidable (_ ∨ _))

theorem pairLe.refl (a : ℚ × ℕ) : pairLe a a := Or.inr ⟨rfl, le_refl _⟩

theorem pairLe.trans {a b c : ℚ × ℕ} (h1 : pairLe a b) (h2 : pairLe b c) :
    pairLe a c := by
  rcases h1 with h1 | ⟨h1, h1n⟩ <;> rcases h2 with h2 | ⟨h2, h2n⟩
  · exact Or.inl (h1.trans h2)
  · exact Or.inl (h2 ▸ h1)
  · exact Or.inl (h1 ▸ h2)
  · exact Or.inr ⟨h1.trans h2, h1n.trans h2n⟩

theorem pairLe.total (a b : ℚ × ℕ) : pairLe a b ∨ pairLe b a := by
  rcases lt_trichotomy a.1 b.1 with h | h | h
  · exact Or.inl (Or.inl h)
  · rcases Nat.le_total a.2 b.2 with hn | hn
    · exact Or.inl (Or.inr ⟨h, hn⟩)
    · exact Or.inr (Or.inr ⟨h.symm, hn⟩)
  · exact Or.inr (Or.inl h)

theorem pairLe.fst_le {a b : ℚ × ℕ} (h : pairLe a b) : a.1 ≤ b.1 := by
  rcases h with h | ⟨h, _⟩
  · exact le_of_lt h
  · exact le_of_eq h

def popMin : List (ℚ × ℕ) → Option ((ℚ × ℕ) × List (ℚ × ℕ))
  | [] => none
  | x :: xs =>
    match popMin xs with
    | none => some (x, [])
    | some (m, rest) => if pairLe x m then some (x, xs) else some (m, x :: rest)

theorem popMin_eq_none_iff (l : List (ℚ × ℕ)) : popMin l = none ↔ l = [] := by
  cases l with
  | nil => simp [popMin]
  | cons x xs =>
    simp only [popMin]
    constructor
    · intro h
      rcases hxs : popMin xs with _ | ⟨m, rest⟩ <;> simp [hxs] at h
      by_cases hle : pairLe x m <;> simp [hle] at h
    · intro h
      exact absurd h (List.cons_ne_nil _ _)

theorem popMin_perm {l : List (ℚ × ℕ)} {m : ℚ × ℕ} {rest : List (ℚ × ℕ)}
    (h : popMin l = some (m, rest)) : List.Perm (m :: rest) l := by
  induction l generalizing m rest with
  | nil => simp [popMin] at h
  | cons x xs ih =>
    simp only [popMin] at h
    rcases hxs : popMin xs with _ | ⟨m0, rest0⟩
    · rw [hxs] at h
      have hx : xs = [] := (popMin_eq_none_iff xs).mp hxs
      simp only [Option.some.injEq, Prod.mk.injEq] at h
      obtain ⟨rfl, rfl⟩ := h
      simp [hx]
    · rw [hxs] at h
      by_cases hle : pairLe x m0
      · simp only [hle, if_pos, Option.some.injEq, Prod.mk.injEq] at h
        obtain ⟨rfl, rfl⟩ := h
        exact List.Perm.refl _
      · simp only [hle, if_neg, not_false_iff, Option.some.injEq, Prod.mk.injEq] at h
        obtain ⟨rfl, rfl⟩ := h
        have hperm := ih hxs
        exact List.Perm.trans (List.Perm.swap x m0 rest0) (List.Perm.cons x hperm)

theorem popMin_min {l : List (ℚ × ℕ)} {m : ℚ × ℕ} {rest : List (ℚ × ℕ)}
    (h : popMin l = some (m, rest)) : ∀ y ∈ l, pairLe m y := by
  induction l generalizing m rest with
  | nil => simp [popMin] at h
  | cons x xs ih =>
    simp only [popMin] at h
    rcases hxs : popMin xs with _ | ⟨m0, rest0⟩
    · rw [hxs] at h
      have hx : xs = [] := (popMin_eq_none_iff xs).mp hxs
      simp only [Option.some.injEq, Prod.mk.injEq] at h
      obtain ⟨rfl, rfl⟩ := h
      intro y hy
      rw [hx] at hy
      simp at hy
      exact hy ▸ pairLe.refl _
    · rw [hxs] at h
      by_cases hle : pairLe x m0
      · simp only [hle, if_pos, Option.some.injEq, Prod.mk.injEq] at h
        obtain ⟨rfl, rfl⟩ := h
        intro y hy
        rcases List.mem_cons.mp hy with rfl | hy
        · exact pairLe.refl y
        · exact pairLe.trans hle (ih hxs y hy)
      · simp only [hle, if_neg, not_false_iff, Option.some.injEq, Prod.mk.injEq] at h
        obtain ⟨rfl, rfl⟩ := h
        intro y hy
        rcases List.mem_cons.mp hy with h1 | h1
        · rw [h1]
          exact (pairLe.total _ _).resolve_right hle
        · exact ih hxs y h1

theorem popMin_mem {l : List (ℚ × ℕ)} {m : ℚ × ℕ} {rest : List (ℚ × ℕ)}
    (h : popMin l = some (m, rest)) : m ∈ l :=
  (popMin_perm h).mem_iff.mp (List.mem_cons_self m rest)

theorem popMin_rest_subset {l : List (ℚ × ℕ)} {m : ℚ × ℕ} {rest : List (ℚ × ℕ)}
    (h : popMin l = some (m, rest)) : ∀ y ∈ rest, y ∈ l := fun y hy =>
  (popMin_perm h).mem_iff.mp (List.mem_cons_of_mem m hy)

theorem popMin_mem_rest {l : List (ℚ × ℕ)} {m : ℚ × ℕ} {rest : List (ℚ × ℕ)}
    (h : popMin l = some (m, rest)) {y : ℚ × ℕ} (hy : y ∈ l) (hne : y ≠ m) :
    y ∈ rest := by
  have := (popMin_perm h).mem_iff.mpr hy
  rcases List.mem_cons.mp this with h1 | h1
  · exact absurd h1 hne
  · exact h1

theorem popMin_length {l : List (ℚ × ℕ)} {m : ℚ × ℕ} {rest : List (ℚ × ℕ)}
    (h : popMin l = some (m, rest)) : rest.length + 1 = l.length := by
  have := (popMin_perm h).length_eq
  simpa [Nat.add_comm] using this

/-! ## Dijkstra's algorithm (`shortest_path.py` and `hospital_select.py`)

Both modules run the same loop (pop with lazy deletion, relax all outgoing
entries); `shortest_path_and_distance` additionally breaks as soon as the
target is popped.  The loop is shared here, parameterized by an optional
early-termination vertex (`some target` for `shortest_path.py` lines 30-31,
`none` for `hospital_select.py`, which never breaks). -/

/-- The mutable loop state: `dist` and `prev` dictionaries, the heap and the
visited set (kept as a list in insertion order; only membership is
observable, matching a Python `set`). -/
structure DState where
  dist : ℕ → Option ℚ
  prev : ℕ → Option ℕ
  heap : List (ℚ × ℕ)
  visited : List ℕ

/-- Every node id that can ever appear in the loop state: the source, the
adjacency keys, and every neighbor id mentioned in an adjacency list.
Used only for the termination measure. -/
def nodeUniverse (g : GraphManager) (s : ℕ) : Finset ℕ :=
  insert s (g.adjKeys.toFinset ∪
    g.adjKeys.toFinset.biUnion (fun k => ((g.adjList k).map (fun e => e.1)).toFinset))

theorem source_mem_nodeUniverse (g : GraphManager) (s : ℕ) :
    s ∈ nodeUniverse g s := Finset.mem_insert_self s _

theorem key_mem_nodeUniverse {g : GraphManager} (s : ℕ) {v : ℕ}
    (h : v ∈ g.adjKeys) : v ∈ nodeUniverse g s := by
  unfold nodeUniverse
  exact Finset.mem_insert_of_mem (Finset.mem_union_left _ (List.mem_toFinset.mpr h))

theorem target_mem_nodeUniverse {g : GraphManager} (s : ℕ) {u : ℕ} {e : AdjEntry}
    (h : e ∈ g.neighbors u) : e.1 ∈ nodeUniverse g s := by
  unfold GraphManager.neighbors at h
  by_cases hu : u ∈ g.adjKeys
  · rw [if_pos hu] at h
    unfold nodeUniverse
    refine Finset.mem_insert_of_mem (Finset.mem_union_right _ ?_)
    refine Finset.mem_biUnion.mpr ⟨u, List.mem_toFinset.mpr hu, ?_⟩
    exact List.mem_toFinset.mpr (List.mem_map.mpr ⟨e, h, rfl⟩)
  · rw [if_neg hu] at h
    exact absurd h (List.not_mem_nil e)

/-- One relaxation step (shortest_path.py lines 33-41 / hospital_select.py
lines 137-144): for adjacency entry `e = (neighbor, weight, edge_id)` out of
the popped node `u` with popped key `d`, update `dist`/`prev` and push when
the new distance is better (or the neighbor is fresh). -/
def relax (u : ℕ) (d : ℚ) (st : DState) (e : AdjEntry) : DState :=
  let nd := d + e.2.1
  match st.dist e.1 with
  | none =>
      { dist := fun k => if k = e.1 then some nd else st.dist k
        prev := fun k => if k = e.1 then some u else st.prev k
        heap := st.heap ++ [(nd, e.1)]
        visited := st.visited }
  | some dz =>
      if nd < dz then
        { dist := fun k => if k = e.1 then some nd else st.dist k
          prev := fun k => if k = e.1 then some u else st.prev k
          heap := st.heap ++ [(nd, e.1)]
          visited := st.visited }
      else st

/-- Relax every outgoing adjacency entry of `u`, in list order (the
`for neighbor_id, weight, _edge_id in graph.neighbors(u)` loop). -/
def relaxAll (g : GraphManager) (u : ℕ) (d : ℚ) (st : DState) : DState :=
  List.foldl (relax u d) st (g.neighbors u)

theorem relax_visited (u : ℕ) (d : ℚ) (st : DState) (e : AdjEntry) :
    (relax u d st e).visited = st.visited := by
  unfold relax
  rcases st.dist e.1 with _ | dz
  · rfl
  · dsimp only
    by_cases h : d + e.2.1 < dz
    · rw [if_pos h]
    · rw [if_neg h]

theorem foldl_relax_visited (u : ℕ) (d : ℚ) (l : List AdjEntry) (st : DState) :
    (List.foldl (relax u d) st l).visited = st.visited := by
  induction l generalizing st with
  | nil => rfl
  | cons e tl ih => rw [List.foldl_cons, ih, relax_visited]

theorem relaxAll_visited (g : GraphManager) (u : ℕ) (d : ℚ) (st : DState) :
    (relaxAll g u d st).visited = st.visited :=
  foldl_relax_visited u d (g.neighbors u) st

theorem relaxAll_of_no_neighbors {g : GraphManager} {u : ℕ} (d : ℚ) (st : DState)
    (h : g.neighbors u = []) : relaxAll g u d st = st := by
  unfold relaxAll
  rw [h]
  rfl

theorem neighbors_eq_nil_of_not_key {g : GraphManager} {u : ℕ}
    (h : u ∉ g.adjKeys) : g.neighbors u = [] := by
  unfold GraphManager.neighbors
  rw [if_neg h]

theorem toFinset_append_singleton (l : List ℕ) (u : ℕ) :
    (l ++ [u]).toFinset = insert u l.toFinset := by
  ext x
  simp [List.mem_toFinset, or_comm]

theorem card_sdiff_lt_of_mem {univ V : Finset ℕ} {u : ℕ}
    (hu : u ∈ univ) (hv : u ∉ V) :
    (univ \ insert u V).card < (univ \ V).card := by
  apply Finset.card_lt_card
  constructor
  · exact Finset.sdiff_subset_sdiff (le_refl univ) (Finset.subset_insert u V)
  · intro hsub
    have h1 : u ∈ univ \ V := Finset.mem_sdiff.mpr ⟨hu, hv⟩
    have h2 := hsub h1
    rw [Finset.mem_sdiff] at h2
    exact h2.2 (Finset.mem_insert_self u V)

theorem sdiff_insert_of_not_mem {univ V : Finset ℕ} {u : ℕ} (hu : u ∉ univ) :
    univ \ insert u V = univ \ V := by
  ext x
  simp only [Finset.mem_sdiff, Finset.mem_insert]
  constructor
  · rintro ⟨hx, hnot⟩
    exact ⟨hx, fun hxv => hnot (Or.inr hxv)⟩
  · rintro ⟨hx, hnot⟩
    refine ⟨hx, fun hor => ?_⟩
    rcases hor with rfl | hxv
    · exact hu hx
    · exact hnot hxv

/-- The Dijkstra loop (shortest_path.py lines 24-41; identically
hospital_select.py lines 120-144 with `stop = none`): pop a minimal entry,
skip it when its node is already visited (lazy deletion), otherwise mark the
node visited, break if it is the early-termination target, else relax its
outgoing entries and continue. -/
def dijkstraLoop (g : GraphManager) (s : ℕ) (stop : Option ℕ) (st : DState) : DState :=
  match hpop : popMin st.heap with
  | none => st
  | some ((d, u), rest) =>
    if hu : u ∈ st.visited then
      dijkstraLoop g s stop ⟨st.dist, st.prev, rest, st.visited⟩
    else
      if stop = some u then
        ⟨st.dist, st.prev, rest, st.visited ++ [u]⟩
      else
        dijkstraLoop g s stop (relaxAll g u d ⟨st.dist, st.prev, rest, st.visited ++ [u]⟩)
termination_by ((nodeUniverse g s \ st.visited.toFinset).card, st.heap.length)
decreasing_by
  · apply Prod.Lex.right
    have := popMin_length hpop
    simpa using Nat.lt_of_lt_of_le (Nat.lt_succ_self rest.length) (le_of_eq this)
  · rw [relaxAll_visited]
    by_cases huniv : u ∈ nodeUniverse g s
    · apply Prod.Lex.left
      dsimp only
      rw [toFinset_append_singleton]
      exact card_sdiff_lt_of_mem huniv (fun hmem => hu (List.mem_toFinset.mp hmem))
    · have hkey : u ∉ g.adjKeys := fun hk => huniv (key_mem_nodeUniverse s hk)
      have hnb := neighbors_eq_nil_of_not_key hkey
      rw [relaxAll_of_no_neighbors d _ hnb]
      dsimp only
      rw [toFinset_append_singleton, sdiff_insert_of_not_mem huniv]
      apply Prod.Lex.right
      have := popMin_length hpop
      simpa using Nat.lt_of_lt_of_le (Nat.lt_succ_self rest.length) (le_of_eq this)

/-- Initial loop state (shortest_path.py lines 17-22 / hospital_select.py
lines 102-118): `dist = {source: 0}`, empty `prev`, heap `[(0, source)]`,
empty visited set. -/
def initState (s : ℕ) : DState :=
  { dist := fun k => if k = s then some 0 else none
    prev := fun _ => none
    heap := [(0, s)]
    visited := [] }

/-- A fuel-indexed twin of `dijkstraLoop` used to evaluate the loop on
concrete inputs by kernel reduction (the well-founded recursion of
`dijkstraLoop` does not reduce definitionally).  `none` means the fuel ran
out; `dijkstraLoopFuel_sound` shows any `some` answer is the loop's value. -/
def dijkstraLoopFuel (g : GraphManager) (s : ℕ) (stop : Option ℕ) :
    ℕ → DState → Option DState
  | 0, _ => none
  | fuel + 1, st =>
    match popMin st.heap with
    | none => some st
    | some ((d, u), rest) =>
      if u ∈ st.visited then
        dijkstraLoopFuel g s stop fuel ⟨st.dist, st.prev, rest, st.visited⟩
      else
        if stop = some u then
          some ⟨st.dist, st.prev, rest, st.visited ++ [u]⟩
        else
          dijkstraLoopFuel g s stop fuel
            (relaxAll g u d ⟨st.dist, st.prev, rest, st.visited ++ [u]⟩)

theorem dijkstraLoopFuel_sound (g : GraphManager) (s : ℕ) (stop : Option ℕ) :
    ∀ (fuel : ℕ) (st out : DState),
      dijkstraLoopFuel g s stop fuel st = some out →
      dijkstraLoop g s stop st = out := by
  intro fuel
  induction fuel with
  | zero => intro st out h; simp [dijkstraLoopFuel] at h
  | succ n ih =>
    intro st out h
    rw [dijkstraLoop]
    simp only [dijkstraLoopFuel] at h
    rcases hpop : popMin st.heap with _ | ⟨⟨d, u⟩, rest⟩
    · rw [hpop] at h
      simp only [Option.some.injEq] at h
      simp [h]
    · rw [hpop] at h
      dsimp only at h ⊢
      by_cases hu : u ∈ st.visited
      · rw [if_pos hu] at h
        rw [dif_pos hu]
        exact ih _ _ h
      · rw [if_neg hu] at h
        rw [dif_neg hu]
        by_cases hstop : stop = some u
        · rw [if_pos hstop] at h
          rw [if_pos hstop]
          simp only [Option.some.injEq] at h
          exact h
        · rw [if_neg hstop] at h
          rw [if_neg hstop]
          exact ih _ _ h

theorem dijkstraLoop_eq_getD {g : GraphManager} {s : ℕ} {stop : Option ℕ}
    {fuel : ℕ} {st : DState} (h : (dijkstraLoopFuel g s stop fuel st).isSome = true) :
    dijkstraLoop g s stop st = (dijkstraLoopFuel g s stop fuel st).getD st := by
  rcases hout : dijkstraLoopFuel g s stop fuel st with _ | out
  · rw [hout] at h; simp at h
  · rw [Option.getD_some]
    exact dijkstraLoopFuel_sound g s stop fuel st out hout

/-- Fuel for walking predecessor pointers.  The Python `while cur != source`
loop (shortest_path.py lines 49-54) has no explicit bound; on every state the
algorithm produces, the chain steps through distinct visited vertices, so
`|nodeUniverse| + 1` steps always suffice (proved below); the fuel only makes
the embedding total. -/
def dijkstraFuel (g : GraphManager) (s : ℕ) : ℕ :=
  (nodeUniverse g s).card + 1

/-- Predecessor-chain walk (shortest_path.py lines 47-56): follow `prev`
from `t` back to `s`, failing (`none`) on a missing predecessor — Python's
`cur = prev.get(cur); if cur is None: bail out`.  The returned list is in
source-to-target order (Python appends then reverses). -/
def pathWalk (prv : ℕ → Option ℕ) (s : ℕ) : ℕ → ℕ → Option (List ℕ)
  | _, 0 => none
  | t, fuel + 1 =>
    if t = s then some [s]
    else
      match prv t with
      | none => none
      | some u => (pathWalk prv s u fuel).map (fun p => p ++ [t])

/-- The post-loop half of `shortest_path_and_distance`
(shortest_path.py lines 43-58): if the target acquired no distance, or the
predecessor chain is broken, return `(None, [])`; otherwise return the
finalized distance and the reconstructed path. -/
def finishPath (dist : ℕ → Option ℚ) (prv : ℕ → Option ℕ) (s t : ℕ) (fuel : ℕ) :
    Option ℚ × List ℕ :=
  match dist t with
  | none => (none, [])
  | some d =>
    match pathWalk prv s t fuel with
    | none => (none, [])
    | some p => (some d, p)

/-- `shortest_path_and_distance` (shortest_path.py lines 13-58). -/
def shortest_path_and_distance (g : GraphManager) (s t : ℕ) : Option ℚ × List ℕ :=
  if g.has_node s ∧ g.has_node t then
    let final := dijkstraLoop g s (some t) (initState s)
    finishPath final.dist final.prev s t (dijkstraFuel g s)
  else (none, [])

/-! ## Hospital selection (`hospital_select.py`) -/

/-- `HospitalSelectionResult` (hospital_select.py lines 33-56); the
`distance_km` enrichment (lines 162-203) only decorates the result with a
physical distance and never affects `best_hospital_id`, `best_distance` or
`distances`, so it is not modelled. -/
structure HospitalSelectionResult where
  best_hospital_id : Option ℕ
  best_distance : Option ℚ
  distances : ℕ → Option ℚ

/-- The selection scan of `find_nearest_hospital` (hospital_select.py lines
148-160): iterate over the hospital set, skip unreached ids, keep the
strictly better distance.  Python iterates a `set` in an unspecified order;
the embedding iterates the deduplicated id list (every property proved below
is independent of this order). -/
def scanStep (dist : ℕ → Option ℚ) (best : Option ℕ × Option ℚ) (h : ℕ) :
    Option ℕ × Option ℚ :=
  match dist h with
  | none => best
  | some d =>
    match best.2 with
    | none => (some h, some d)
    | some bd => if d < bd then (some h, some d) else best

def bestScan (dist : ℕ → Option ℚ) (ids : List ℕ) : Option ℕ × Option ℚ :=
  List.foldl (scanStep dist) (none, none) ids

/-- `find_nearest_hospital` (hospital_select.py lines 59-210). -/
def find_nearest_hospital (g : GraphManager) (s : ℕ) (hospital_node_ids : List ℕ) :
    HospitalSelectionResult :=
  if g.has_node s then
    let final := dijkstraLoop g s none (initState s)
    let best := bestScan final.dist hospital_node_ids.dedup
    { best_hospital_id := best.1, best_distance := best.2, distances := final.dist }
  else
    { best_hospital_id := none, best_distance := none, distances := fun _ => none }

/-! ## Loop invariants for the shared Dijkstra loop -/

/-- `chainReaches prv s n v`: following `prev` pointers from `v` reaches the
source `s` within `n` steps. -/
def chainReaches (prv : ℕ → Option ℕ) (s : ℕ) : ℕ → ℕ → Prop
  | 0, v => v = s
  | n + 1, v => v = s ∨ ∃ u, prv v = some u ∧ chainReaches prv s n u

theorem chainReaches_succ_of (prv : ℕ → Option ℕ) (s : ℕ) {n v : ℕ}
    (h : chainReaches prv s n v) : chainReaches prv s (n + 1) v := by
  induction n generalizing v with
  | zero => exact Or.inl h
  | succ m ih =>
    rcases h with h | ⟨u, hu, hc⟩
    · exact Or.inl h
    · exact Or.inr ⟨u, hu, ih hc⟩

theorem chainReaches_mono (prv : ℕ → Option ℕ) (s : ℕ) {n m v : ℕ}
    (hnm : n ≤ m) (h : chainReaches prv s n v) : chainReaches prv s m v := by
  induction hnm with
  | refl => exact h
  | step _ ih => exact chainReaches_succ_of prv s ih

theorem chainReaches_self (prv : ℕ → Option ℕ) (s : ℕ) (n : ℕ) :
    chainReaches prv s n s := by
  cases n with
  | zero => rfl
  | succ m => exact Or.inl rfl

/-- `chainReaches` is stable under any modification of `prev` outside the
visited set, as long as existing pointers stay inside the visited set. -/
theorem chainReaches_congr {prv prv2 : ℕ → Option ℕ} {s : ℕ} {vis : List ℕ}
    (hclosed : ∀ x p, prv x = some p → p ∈ vis)
    (hagree : ∀ x ∈ vis, prv2 x = prv x) :
    ∀ {n v : ℕ}, v ∈ vis → chainReaches prv s n v → chainReaches prv2 s n v := by
  intro n
  induction n with
  | zero => intro v _ h; exact h
  | succ m ih =>
    intro v hv h
    rcases h with h | ⟨u, hu, hc⟩
    · exact Or.inl h
    · exact Or.inr ⟨u, (hagree v hv) ▸ hu, ih (hclosed v u hu) hc⟩

/-- A successful chain guarantees a successful predecessor walk. -/
theorem pathWalk_isSome_of_chain {prv : ℕ → Option ℕ} {s : ℕ} :
    ∀ {n v fuel : ℕ}, chainReaches prv s n v → n < fuel →
      ∃ p, pathWalk prv s v fuel = some p := by
  intro n
  induction n with
  | zero =>
    intro v fuel h hf
    rcases fuel with _ | f
    · exact absurd hf (Nat.lt_irrefl 0)
    · exact ⟨[s], by simp [pathWalk, show v = s from h]⟩
  | succ m ih =>
    intro v fuel h hf
    rcases fuel with _ | f
    · exact absurd hf (Nat.not_lt_zero _)
    · by_cases hvs : v = s
      · exact ⟨[s], by simp [pathWalk, hvs]⟩
      · rcases h with h | ⟨u, hu, hc⟩
        · exact absurd h hvs
        · obtain ⟨p, hp⟩ := ih hc (Nat.lt_of_succ_lt_succ hf)
          refine ⟨p ++ [v], ?_⟩
          simp only [pathWalk, if_neg hvs, hu, hp, Option.map_some']

/-- All outgoing adjacency entries of `v` are relaxed in state `st`. -/
def RelaxedAt (g : GraphManager) (st : DState) (v : ℕ) : Prop :=
  ∀ e ∈ g.neighbors v, ∀ dv, st.dist v = some dv →
    ∃ dz, st.dist e.1 = some dz ∧ dz ≤ dv + e.2.1

/-- Core loop invariant of the lazy-deletion Dijkstra loop. -/
structure InvBase (g : GraphManager) (s : ℕ) (st : DState) : Prop where
  hs0 : st.dist s = some 0
  sound : ∀ v d, st.dist v = some d → PathCost g s v d
  heapKey : ∀ p ∈ st.heap, ∃ d, st.dist p.2 = some d ∧ d ≤ p.1
  heapUniv : ∀ p ∈ st.heap, p.2 ∈ nodeUniverse g s
  heapCover : ∀ v d, v ∉ st.visited → st.dist v = some d → (d, v) ∈ st.heap
  visDist : ∀ v ∈ st.visited, ∃ d, st.dist v = some d
  visOpt : ∀ v ∈ st.visited, ∀ d c, st.dist v = some d → PathCost g s v c → d ≤ c
  prevVis : ∀ v p, st.prev v = some p → p ∈ st.visited
  prevDef : ∀ v d, st.dist v = some d → v ≠ s → ∃ p, st.prev v = some p
  chain : ∀ v ∈ st.visited, chainReaches st.prev s st.visited.length v
  init0 : st.visited = [] →
    st.heap = [(0, s)] ∧ st.dist = (initState s).dist ∧ st.prev = (initState s).prev
  sVis : st.visited ≠ [] → s ∈ st.visited
  visNodup : st.visited.Nodup
  visUniv : ∀ v ∈ st.visited, v ∈ nodeUniverse g s

/-- Full invariant: the core invariant plus: every visited vertex has all of
its outgoing entries relaxed. -/
def Inv (g : GraphManager) (s : ℕ) (st : DState) : Prop :=
  InvBase g s st ∧ ∀ v ∈ st.visited, RelaxedAt g st v

theorem initState_inv (g : GraphManager) (s : ℕ) : Inv g s (initState s) := by
  constructor
  · refine ⟨?_, ?_, ?_, ?_, ?_, ?_, ?_, ?_, ?_, ?_, ?_, ?_, ?_, ?_⟩
    · simp [initState]
    · intro v d hvd
      simp only [initState] at hvd
      by_cases hv : v = s
      · subst hv
        rw [if_pos rfl] at hvd
        cases hvd
        exact PathCost.single v
      · rw [if_neg hv] at hvd
        cases hvd
    · intro p hp
      simp only [initState, List.mem_singleton] at hp
      subst hp
      exact ⟨0, by simp [initState], le_refl 0⟩
    · intro p hp
      simp only [initState, List.mem_singleton] at hp
      subst hp
      exact source_mem_nodeUniverse g s
    · intro v d _ hvd
      simp only [initState] at hvd
      by_cases hv : v = s
      · subst hv
        rw [if_pos rfl] at hvd
        cases hvd
        simp [initState]
      · rw [if_neg hv] at hvd
        cases hvd
    · intro v hv
      simp [initState] at hv
    · intro v hv
      simp [initState] at hv
    · intro v p hvp
      simp [initState] at hvp
    · intro v d hvd hvs
      simp only [initState] at hvd
      rw [if_neg hvs] at hvd
      cases hvd
    · intro v hv
      simp [initState] at hv
    · intro _
      exact ⟨rfl, rfl, rfl⟩
    · intro h
      exact absurd rfl h
    · simp [initState]
    · intro v hv
      simp [initState] at hv
  · intro v hv
    simp [initState] at hv

theorem PathCost.snoc_entry {g : GraphManager} {s u : ℕ} {c : ℚ} {e : AdjEntry}
    (h : PathCost g s u c) (he : e ∈ g.neighbors u) : PathCost g s e.1 (c + e.2.1) := by
  obtain ⟨z, w, i⟩ := e
  exact h.snoc he

/-- Complete case analysis of one relaxation step: either nothing changed
(and the target already had a distance at most the candidate), or
`dist`/`prev` were rewritten at the target and the candidate was pushed. -/
theorem relax_spec (u : ℕ) (d : ℚ) (st : DState) (e : AdjEntry) :
    (relax u d st e = st ∧ ∃ dz, st.dist e.1 = some dz ∧ dz ≤ d + e.2.1) ∨
    ((∀ k, (relax u d st e).dist k = if k = e.1 then some (d + e.2.1) else st.dist k) ∧
     (∀ k, (relax u d st e).prev k = if k = e.1 then some u else st.prev k) ∧
     (relax u d st e).heap = st.heap ++ [(d + e.2.1, e.1)] ∧
     (relax u d st e).visited = st.visited ∧
     ∀ dz, st.dist e.1 = some dz → d + e.2.1 < dz) := by
  unfold relax
  rcases hdz : st.dist e.1 with _ | dz
  · refine Or.inr ⟨fun k => rfl, fun k => rfl, rfl, rfl, ?_⟩
    intro dz h
    exact absurd h (by simp)
  · dsimp only
    by_cases hlt : d + e.2.1 < dz
    · rw [if_pos hlt]
      refine Or.inr ⟨fun k => rfl, fun k => rfl, rfl, rfl, ?_⟩
      intro dz2 h
      rw [Option.some.injEq] at h
      rw [← h]
      exact hlt
    · rw [if_neg hlt]
      exact Or.inl ⟨rfl, ⟨dz, rfl, le_of_not_lt hlt⟩⟩

theorem relax_target_not_visited {g : GraphManager} {s u : ℕ} {d : ℚ} {st : DState}
    {e : AdjEntry} (hw : NonnegWeights g) (hb : InvBase g s st)
    (hd : st.dist u = some d) (he : e ∈ g.neighbors u)
    (hupd : ∀ dz, st.dist e.1 = some dz → d + e.2.1 < dz) : e.1 ∉ st.visited := by
  intro hvis
  obtain ⟨dz, hdz⟩ := hb.visDist e.1 hvis
  have hpath : PathCost g s e.1 (d + e.2.1) := (hb.sound u d hd).snoc_entry he
  have hopt := hb.visOpt e.1 hvis dz (d + e.2.1) hdz hpath
  exact absurd (hupd dz hdz) (not_lt_of_le hopt)

theorem relax_dist_visited {g : GraphManager} {s u : ℕ} {d : ℚ} {st : DState}
    {e : AdjEntry} (hw : NonnegWeights g) (hb : InvBase g s st)
    (hd : st.dist u = some d) (he : e ∈ g.neighbors u) :
    ∀ v ∈ st.visited, (relax u d st e).dist v = st.dist v := by
  intro v hv
  rcases relax_spec u d st e with ⟨heq, _⟩ | ⟨hdist, _, _, _, hupd⟩
  · rw [heq]
  · rw [hdist v]
    have hne : v ≠ e.1 := by
      intro hveq
      exact relax_target_not_visited hw hb hd he hupd (hveq ▸ hv)
    rw [if_neg hne]

theorem relax_dist_mono {u : ℕ} {d : ℚ} {st : DState} {e : AdjEntry} :
    ∀ v dv, st.dist v = some dv →
      ∃ dn, (relax u d st e).dist v = some dn ∧ dn ≤ dv := by
  intro v dv hdv
  rcases relax_spec u d st e with ⟨heq, _⟩ | ⟨hdist, _, _, _, hupd⟩
  · rw [heq]
    exact ⟨dv, hdv, le_refl dv⟩
  · by_cases hv : v = e.1
    · subst hv
      exact ⟨d + e.2.1, by rw [hdist e.1, if_pos rfl], le_of_lt (hupd dv hdv)⟩
    · exact ⟨dv, by rw [hdist v, if_neg hv]; exact hdv, le_refl dv⟩

theorem relax_dist_bounded_mono {u : ℕ} {d : ℚ} {st : DState} {e : AdjEntry}
    {v : ℕ} {b : ℚ} (h : ∃ dz, st.dist v = some dz ∧ dz ≤ b) :
    ∃ dz, (relax u d st e).dist v = some dz ∧ dz ≤ b := by
  obtain ⟨dz, hdz, hle⟩ := h
  obtain ⟨dn, hdn, hle2⟩ := relax_dist_mono v dz hdz
  exact ⟨dn, hdn, hle2.trans hle⟩

theorem relax_relaxedAt_preserved {g : GraphManager} {s u : ℕ} {d : ℚ} {st : DState}
    {e : AdjEntry} (hw : NonnegWeights g) (hb : InvBase g s st)
    (hd : st.dist u = some d) (he : e ∈ g.neighbors u)
    {v : ℕ} (hv : v ∈ st.visited) (hr : RelaxedAt g st v) :
    RelaxedAt g (relax u d st e) v := by
  intro e0 he0 dv hdv
  rw [relax_dist_visited hw hb hd he v hv] at hdv
  exact relax_dist_bounded_mono (hr e0 he0 dv hdv)

theorem relax_processed {g : GraphManager} {s u : ℕ} {d : ℚ} {st : DState}
    {e : AdjEntry} (hw : NonnegWeights g) (hb : InvBase g s st)
    (hd : st.dist u = some d) (he : e ∈ g.neighbors u) :
    ∃ dz, (relax u d st e).dist e.1 = some dz ∧ dz ≤ d + e.2.1 := by
  rcases relax_spec u d st e with ⟨heq, hex⟩ | ⟨hdist, _, _, _, _⟩
  · rw [heq]
    exact hex
  · exact ⟨d + e.2.1, by rw [hdist e.1, if_pos rfl], le_refl _⟩

theorem relax_InvBase {g : GraphManager} {s u : ℕ} {d : ℚ} {st : DState}
    {e : AdjEntry} (hw : NonnegWeights g) (hb : InvBase g s st)
    (hu : u ∈ st.visited) (hd : st.dist u = some d) (he : e ∈ g.neighbors u) :
    InvBase g s (relax u d st e) := by
  rcases relax_spec u d st e with ⟨heq, _⟩ | ⟨hdist, hprev, hheap, hvisited, hupd⟩
  · rw [heq]
    exact hb
  · have hz : e.1 ∉ st.visited := relax_target_not_visited hw hb hd he hupd
    have hsvis : s ∈ st.visited := hb.sVis (by intro h0; rw [h0] at hu; cases hu)
    have hzs : e.1 ≠ s := by
      intro hzeq
      exact hz (hzeq ▸ hsvis)
    refine ⟨?_, ?_, ?_, ?_, ?_, ?_, ?_, ?_, ?_, ?_, ?_, ?_, ?_, ?_⟩
    · rw [hdist s]
      rw [if_neg (fun hs => hzs hs.symm)]
      exact hb.hs0
    · intro v dv hdv
      rw [hdist v] at hdv
      by_cases hv : v = e.1
      · rw [if_pos hv] at hdv
        cases hdv
        exact hv ▸ ((hb.sound u d hd).snoc_entry he)
      · rw [if_neg hv] at hdv
        exact hb.sound v dv hdv
    · intro p hp
      rw [hheap] at hp
      rcases List.mem_append.mp hp with hp | hp
      · obtain ⟨dp, hdp, hle⟩ := hb.heapKey p hp
        by_cases hv : p.2 = e.1
        · rw [hv] at hdp
          refine ⟨d + e.2.1, ?_, ?_⟩
          · rw [hv, hdist e.1, if_pos rfl]
          · exact (le_of_lt (hupd dp hdp)).trans hle
        · exact ⟨dp, by rw [hdist p.2, if_neg hv]; exact hdp, hle⟩
      · rw [List.mem_singleton] at hp
        subst hp
        exact ⟨d + e.2.1, by rw [hdist e.1, if_pos rfl], le_refl _⟩
    · intro p hp
      rw [hheap] at hp
      rcases List.mem_append.mp hp with hp | hp
      · exact hb.heapUniv p hp
      · rw [List.mem_singleton] at hp
        subst hp
        exact target_mem_nodeUniverse s he
    · intro v dv hv hdv
      rw [hvisited] at hv
      rw [hdist v] at hdv
      rw [hheap]
      by_cases hveq : v = e.1
      · rw [if_pos hveq] at hdv
        cases hdv
        subst hveq
        exact List.mem_append.mpr (Or.inr (List.mem_singleton.mpr rfl))
      · rw [if_neg hveq] at hdv
        exact List.mem_append.mpr (Or.inl (hb.heapCover v dv hv hdv))
    · intro v hv
      rw [hvisited] at hv
      obtain ⟨dv, hdv⟩ := hb.visDist v hv
      have hne : v ≠ e.1 := fun hveq => hz (hveq ▸ hv)
      exact ⟨dv, by rw [hdist v, if_neg hne]; exact hdv⟩
    · intro v hv dv c hdv hc
      rw [hvisited] at hv
      rw [hdist v] at hdv
      have hne : v ≠ e.1 := fun hveq => hz (hveq ▸ hv)
      rw [if_neg hne] at hdv
      exact hb.visOpt v hv dv c hdv hc
    · intro v p hvp
      rw [hprev v] at hvp
      rw [hvisited]
      by_cases hveq : v = e.1
      · rw [if_pos hveq] at hvp
        cases hvp
        exact hu
      · rw [if_neg hveq] at hvp
        exact hb.prevVis v p hvp
    · intro v dv hdv hvs
      rw [hdist v] at hdv
      by_cases hveq : v = e.1
      · exact ⟨u, by rw [hprev v, if_pos hveq]⟩
      · rw [if_neg hveq] at hdv
        obtain ⟨p, hp⟩ := hb.prevDef v dv hdv hvs
        exact ⟨p, by rw [hprev v, if_neg hveq]; exact hp⟩
    · intro v hv
      rw [hvisited] at hv ⊢
      refine chainReaches_congr hb.prevVis ?_ hv (hb.chain v hv)
      intro x hx
      rw [hprev x]
      have hne : x ≠ e.1 := fun hxeq => hz (hxeq ▸ hx)
      rw [if_neg hne]
    · intro h0
      rw [hvisited] at h0
      rw [h0] at hu
      cases hu
    · intro _
      rw [hvisited]
      exact hsvis
    · rw [hvisited]
      exact hb.visNodup
    · intro v hv
      rw [hvisited] at hv
      exact hb.visUniv v hv

/-- Combined effect of relaxing a list of outgoing entries of a visited
vertex `u` whose distance is `d`. -/
theorem foldl_relax_spec {g : GraphManager} {s u : ℕ} {d : ℚ}
    (hw : NonnegWeights g) :
    ∀ (L : List AdjEntry) (st : DState), (∀ x ∈ L, x ∈ g.neighbors u) →
      InvBase g s st → u ∈ st.visited → st.dist u = some d →
      InvBase g s (List.foldl (relax u d) st L) ∧
      (∀ v ∈ st.visited, RelaxedAt g st v →
        RelaxedAt g (List.foldl (relax u d) st L) v) ∧
      (∀ v ∈ st.visited, (List.foldl (relax u d) st L).dist v = st.dist v) ∧
      (∀ e0 ∈ L, ∃ dz, (List.foldl (relax u d) st L).dist e0.1 = some dz ∧
        dz ≤ d + e0.2.1) ∧
      (∀ v dv, st.dist v = some dv →
        ∃ dn, (List.foldl (relax u d) st L).dist v = some dn ∧ dn ≤ dv) := by
  intro L
  induction L with
  | nil =>
    intro st _ hb hu hd
    refine ⟨hb, ?_, ?_, ?_, ?_⟩
    · intro v _ hr
      exact hr
    · intro v _
      rfl
    · intro e0 he0
      cases he0
    · intro v dv hdv
      exact ⟨dv, hdv, le_refl dv⟩
  | cons e L ih =>
    intro st hL hb hu hd
    have he : e ∈ g.neighbors u := hL e (List.mem_cons_self e L)
    have hL2 : ∀ x ∈ L, x ∈ g.neighbors u := fun x hx => hL x (List.mem_cons_of_mem e hx)
    have hb2 : InvBase g s (relax u d st e) := relax_InvBase hw hb hu hd he
    have hvis2 : (relax u d st e).visited = st.visited := relax_visited u d st e
    have hu2 : u ∈ (relax u d st e).visited := hvis2 ▸ hu
    have hd2 : (relax u d st e).dist u = some d := by
      rw [relax_dist_visited hw hb hd he u hu]
      exact hd
    obtain ⟨ihb, ihrel, ihdist, ihproc, ihmono⟩ := ih (relax u d st e) hL2 hb2 hu2 hd2
    rw [List.foldl_cons]
    refine ⟨ihb, ?_, ?_, ?_, ?_⟩
    · intro v hv hr
      exact ihrel v (hvis2 ▸ hv) (relax_relaxedAt_preserved hw hb hd he hv hr)
    · intro v hv
      rw [ihdist v (hvis2 ▸ hv)]
      exact relax_dist_visited hw hb hd he v hv
    · intro e0 he0
      rcases List.mem_cons.mp he0 with rfl | he0
      · obtain ⟨dz, hdz, hle⟩ := relax_processed hw hb hd he
        obtain ⟨dn, hdn, hle2⟩ := ihmono e0.1 dz hdz
        exact ⟨dn, hdn, hle2.trans hle⟩
      · exact ihproc e0 he0
    · intro v dv hdv
      obtain ⟨dn, hdn, hle⟩ := relax_dist_mono v dv hdv
      obtain ⟨dn2, hdn2, hle2⟩ := ihmono v dn hdn
      exact ⟨dn2, hdn2, hle2.trans hle⟩

/-- Walking any path that starts inside the visited region and ends outside
it meets a heap entry whose key is bounded by the start's distance plus the
path cost (the textbook "cut" argument). -/
theorem coverAux {g : GraphManager} {s : ℕ} {st : DState} (hw : NonnegWeights g)
    (hb : InvBase g s st) (hrel : ∀ v ∈ st.visited, RelaxedAt g st v) :
    ∀ {u0 t : ℕ} {c : ℚ}, PathCost g u0 t c → u0 ∈ st.visited → t ∉ st.visited →
      ∀ du0, st.dist u0 = some du0 → ∃ p ∈ st.heap, p.1 ≤ du0 + c := by
  intro u0 t c hpath
  induction hpath with
  | single v =>
    intro hv hnv
    exact absurd hv hnv
  | cons he htail ih =>
    intro hu0 hnt du0 hdu0
    obtain ⟨dv, hdv, hledv⟩ := hrel _ hu0 _ he du0 hdu0
    rename_i u v t w c eid
    by_cases hvvis : v ∈ st.visited
    · obtain ⟨p, hp, hple⟩ := ih hvvis hnt dv hdv
      refine ⟨p, hp, hple.trans ?_⟩
      have : dv + c ≤ (du0 + w) + c := by linarith
      calc dv + c ≤ (du0 + w) + c := this
        _ = du0 + (w + c) := by ring
    · have hc0 : 0 ≤ c := htail.cost_nonneg hw
      refine ⟨(dv, v), hb.heapCover v dv hvvis hdv, ?_⟩
      calc dv ≤ du0 + w := hledv
        _ ≤ du0 + (w + c) := by linarith

/-- Any path from the source to an unvisited vertex meets a heap entry
whose key is at most the path cost. -/
theorem cover {g : GraphManager} {s : ℕ} {st : DState} (hw : NonnegWeights g)
    (hb : InvBase g s st) (hrel : ∀ v ∈ st.visited, RelaxedAt g st v)
    {t : ℕ} {c : ℚ} (hpath : PathCost g s t c) (hnt : t ∉ st.visited) :
    ∃ p ∈ st.heap, p.1 ≤ c := by
  by_cases h0 : st.visited = []
  · obtain ⟨hheap, _, _⟩ := hb.init0 h0
    refine ⟨(0, s), ?_, hpath.cost_nonneg hw⟩
    rw [hheap]
    exact List.mem_singleton.mpr rfl
  · have hsvis := hb.sVis h0
    obtain ⟨p, hp, hple⟩ := coverAux hw hb hrel hpath hsvis hnt 0 hb.hs0
    exact ⟨p, hp, by linarith⟩

/-- A freshly popped vertex's key is its recorded tentative distance. -/
theorem visit_dist {g : GraphManager} {s : ℕ} {st : DState} {d : ℚ} {u : ℕ}
    {rest : List (ℚ × ℕ)} (hInv : Inv g s st)
    (hpop : popMin st.heap = some ((d, u), rest)) (hu : u ∉ st.visited) :
    st.dist u = some d := by
  obtain ⟨hb, _⟩ := hInv
  obtain ⟨du, hdu, hle⟩ := hb.heapKey (d, u) (popMin_mem hpop)
  have hcov := hb.heapCover u du hu hdu
  have hmin := popMin_min hpop (du, u) hcov
  have h1 : d ≤ du := pairLe.fst_le hmin
  rw [le_antisymm h1 hle]
  exact hdu

/-- A freshly popped vertex's key is optimal: it bounds every path cost to
the vertex (Dijkstra's central property, for non-negative weights). -/
theorem visit_opt {g : GraphManager} {s : ℕ} {st : DState} {d : ℚ} {u : ℕ}
    {rest : List (ℚ × ℕ)} (hw : NonnegWeights g) (hInv : Inv g s st)
    (hpop : popMin st.heap = some ((d, u), rest)) (hu : u ∉ st.visited) :
    ∀ c, PathCost g s u c → d ≤ c := by
  intro c hpath
  obtain ⟨hb, hrel⟩ := hInv
  obtain ⟨p, hp, hple⟩ := cover hw hb hrel hpath hu
  exact (pairLe.fst_le (popMin_min hpop p hp)).trans hple

/-- Skipping a stale heap entry preserves the invariant. -/
theorem skip_Inv {g : GraphManager} {s : ℕ} {st : DState} {d : ℚ} {u : ℕ}
    {rest : List (ℚ × ℕ)} (hInv : Inv g s st)
    (hpop : popMin st.heap = some ((d, u), rest)) (hu : u ∈ st.visited) :
    Inv g s ⟨st.dist, st.prev, rest, st.visited⟩ := by
  obtain ⟨hb, hrel⟩ := hInv
  refine ⟨⟨hb.hs0, hb.sound, ?_, ?_, ?_, hb.visDist, hb.visOpt, hb.prevVis,
    hb.prevDef, hb.chain, ?_, hb.sVis, hb.visNodup, hb.visUniv⟩, hrel⟩
  · intro p hp
    exact hb.heapKey p (popMin_rest_subset hpop p hp)
  · intro p hp
    exact hb.heapUniv p (popMin_rest_subset hpop p hp)
  · intro v dv hv hdv
    refine popMin_mem_rest hpop (hb.heapCover v dv hv hdv) ?_
    intro heq
    have : v = u := congrArg Prod.snd heq
    exact hv (this ▸ hu)
  · intro h0
    rw [h0] at hu
    cases hu

/-- Marking a freshly popped vertex as visited preserves the core
invariant. -/
theorem visit_InvBase {g : GraphManager} {s : ℕ} {st : DState} {d : ℚ} {u : ℕ}
    {rest : List (ℚ × ℕ)} (hw : NonnegWeights g) (hInv : Inv g s st)
    (hpop : popMin st.heap = some ((d, u), rest)) (hu : u ∉ st.visited) :
    InvBase g s ⟨st.dist, st.prev, rest, st.visited ++ [u]⟩ := by
  obtain ⟨hb, hrel⟩ := hInv
  have hdu : st.dist u = some d := visit_dist ⟨hb, hrel⟩ hpop hu
  refine ⟨hb.hs0, hb.sound, ?_, ?_, ?_, ?_, ?_, ?_, hb.prevDef, ?_, ?_, ?_, ?_, ?_⟩
  · intro p hp
    exact hb.heapKey p (popMin_rest_subset hpop p hp)
  · intro p hp
    exact hb.heapUniv p (popMin_rest_subset hpop p hp)
  · intro v dv hv hdv
    have hv2 : v ∉ st.visited := fun hmem => hv (List.mem_append_left [u] hmem)
    have hvu : v ≠ u := by
      intro hveq
      exact hv (List.mem_append_right st.visited (hveq ▸ List.mem_singleton.mpr rfl))
    refine popMin_mem_rest hpop (hb.heapCover v dv hv2 hdv) ?_
    intro heq
    exact hvu (congrArg Prod.snd heq)
  · intro v hv
    rcases List.mem_append.mp hv with hv | hv
    · exact hb.visDist v hv
    · rw [List.mem_singleton] at hv
      exact ⟨d, hv ▸ hdu⟩
  · intro v hv dv c hdv hc
    rcases List.mem_append.mp hv with hv | hv
    · exact hb.visOpt v hv dv c hdv hc
    · rw [List.mem_singleton] at hv
      subst hv
      have hd : dv = d := by
        rw [hdu] at hdv
        exact (Option.some.injEq _ _ ▸ hdv).symm ▸ rfl
      rw [hd] at hdv ⊢
      exact visit_opt hw ⟨hb, hrel⟩ hpop hu c hc
  · intro v p hvp
    exact List.mem_append_left [u] (hb.prevVis v p hvp)
  · intro v hv
    rw [List.length_append, List.length_singleton]
    rcases List.mem_append.mp hv with hv | hv
    · exact chainReaches_succ_of st.prev s (hb.chain v hv)
    · rw [List.mem_singleton] at hv
      subst hv
      by_cases hvs : v = s
      · rw [hvs]
        exact chainReaches_self st.prev s _
      · obtain ⟨p, hp⟩ := hb.prevDef v d hdu hvs
        exact Or.inr ⟨p, hp, hb.chain p (hb.prevVis v p hp)⟩
  · intro h0
    exact absurd h0 (by simp)
  · intro _
    by_cases h0 : st.visited = []
    · obtain ⟨hheap, _, _⟩ := hb.init0 h0
      rw [hheap] at hpop
      have : ((0 : ℚ), s) = ((d, u)) := by
        have h1 : popMin [((0 : ℚ), s)] = some (((0 : ℚ), s), []) := rfl
        rw [h1] at hpop
        exact (Prod.mk.injEq _ _ _ _ ▸ Option.some.injEq _ _ ▸ hpop).1
      have hsu : s = u := congrArg Prod.snd this
      rw [hsu]
      exact List.mem_append_right st.visited (List.mem_singleton.mpr rfl)
    · exact List.mem_append_left [u] (hb.sVis h0)
  · rw [List.nodup_append]
    exact ⟨hb.visNodup, List.nodup_singleton u, by
      intro a ha hb2
      rw [List.mem_singleton] at hb2
      exact hu (hb2 ▸ ha)⟩
  · intro v hv
    rcases List.mem_append.mp hv with hv | hv
    · exact hb.visUniv v hv
    · rw [List.mem_singleton] at hv
      subst hv
      exact hb.heapUniv (d, v) (popMin_mem hpop)

/-- After relaxing the freshly visited vertex's outgoing entries, the full
invariant is restored. -/
theorem visit_Inv {g : GraphManager} {s : ℕ} {st : DState} {d : ℚ} {u : ℕ}
    {rest : List (ℚ × ℕ)} (hw : NonnegWeights g) (hInv : Inv g s st)
    (hpop : popMin st.heap = some ((d, u), rest)) (hu : u ∉ st.visited) :
    Inv g s (relaxAll g u d ⟨st.dist, st.prev, rest, st.visited ++ [u]⟩) := by
  obtain ⟨hb, hrel⟩ := hInv
  have hdu : st.dist u = some d := visit_dist ⟨hb, hrel⟩ hpop hu
  have hb1 : InvBase g s ⟨st.dist, st.prev, rest, st.visited ++ [u]⟩ :=
    visit_InvBase hw ⟨hb, hrel⟩ hpop hu
  have hu1 : u ∈ (st.visited ++ [u]) :=
    List.mem_append_right st.visited (List.mem_singleton.mpr rfl)
  obtain ⟨hb2, hpres, hfix, hproc, _⟩ :=
    foldl_relax_spec hw (g.neighbors u) ⟨st.dist, st.prev, rest, st.visited ++ [u]⟩
      (fun x hx => hx) hb1 hu1 hdu
  unfold relaxAll
  refine ⟨hb2, ?_⟩
  rw [foldl_relax_visited]
  intro v hv
  dsimp only at hv
  rcases List.mem_append.mp hv with hvold | hvnew
  · exact hpres v hv (hrel v hvold)
  · rw [List.mem_singleton] at hvnew
    subst hvnew
    intro e he dv hdv
    rw [hfix v hv] at hdv
    dsimp only at hdv
    rw [hdu] at hdv
    have hdvd : dv = d := (Option.some.injEq _ _ ▸ hdv).symm ▸ rfl
    subst hdvd
    exact hproc e he

/-- Everything true of the state the Dijkstra loop finally returns: the core
invariant holds, and either the heap is exhausted with the full invariant,
or the loop broke after visiting the early-termination target. -/
theorem dijkstraLoop_post (g : GraphManager) (s : ℕ) (stop : Option ℕ)
    (hw : NonnegWeights g) :
    ∀ st : DState, Inv g s st →
      InvBase g s (dijkstraLoop g s stop st) ∧
      (((dijkstraLoop g s stop st).heap = [] ∧ Inv g s (dijkstraLoop g s stop st)) ∨
        ∃ t, stop = some t ∧ t ∈ (dijkstraLoop g s stop st).visited) := by
  refine dijkstraLoop.induct g s stop
    (fun x => Inv g s x →
      InvBase g s (dijkstraLoop g s stop x) ∧
      (((dijkstraLoop g s stop x).heap = [] ∧ Inv g s (dijkstraLoop g s stop x)) ∨
        ∃ t, stop = some t ∧ t ∈ (dijkstraLoop g s stop x).visited))
    ?_ ?_ ?_ ?_
  · intro x hpop hInv
    rw [dijkstraLoop]
    split
    · exact ⟨hInv.1, Or.inl ⟨(popMin_eq_none_iff x.heap).mp hpop, hInv⟩⟩
    · rename_i d u rest heq
      rw [hpop] at heq
      cases heq
  · intro x d u rest hpop hu ih hInv
    rw [dijkstraLoop]
    split
    · rename_i heq
      rw [hpop] at heq
      cases heq
    · rename_i d2 u2 rest2 heq
      rw [hpop] at heq
      rw [Option.some.injEq, Prod.mk.injEq, Prod.mk.injEq] at heq
      obtain ⟨⟨hd2, hu2⟩, hrest2⟩ := heq
      subst hd2
      subst hu2
      subst hrest2
      rw [dif_pos hu]
      exact ih (skip_Inv hInv hpop hu)
  · intro x d u rest hpop hu hstop hInv
    rw [dijkstraLoop]
    split
    · rename_i heq
      rw [hpop] at heq
      cases heq
    · rename_i d2 u2 rest2 heq
      rw [hpop] at heq
      rw [Option.some.injEq, Prod.mk.injEq, Prod.mk.injEq] at heq
      obtain ⟨⟨hd2, hu2⟩, hrest2⟩ := heq
      subst hd2
      subst hu2
      subst hrest2
      rw [dif_neg hu, if_pos hstop]
      refine ⟨visit_InvBase hw hInv hpop hu, Or.inr ⟨u, hstop, ?_⟩⟩
      exact List.mem_append_right x.visited (List.mem_singleton.mpr rfl)
  · intro x d u rest hpop hu hstop ih hInv
    rw [dijkstraLoop]
    split
    · rename_i heq
      rw [hpop] at heq
      cases heq
    · rename_i d2 u2 rest2 heq
      rw [hpop] at heq
      rw [Option.some.injEq, Prod.mk.injEq, Prod.mk.injEq] at heq
      obtain ⟨⟨hd2, hu2⟩, hrest2⟩ := heq
      subst hd2
      subst hu2
      subst hrest2
      rw [dif_neg hu, if_neg hstop]
      exact ih (visit_Inv hw hInv hpop hu)

/-- At a heap-empty terminal state, every vertex that carries a distance is
visited. -/
theorem dist_visited_of_empty {g : GraphManager} {s : ℕ} {st : DState}
    (hb : InvBase g s st) (hempty : st.heap = []) :
    ∀ v dv, st.dist v = some dv → v ∈ st.visited := by
  intro v dv hdv
  by_cases hv : v ∈ st.visited
  · exact hv
  · have := hb.heapCover v dv hv hdv
    rw [hempty] at this
    cases this

/-- Completeness at a heap-empty terminal state: every vertex reachable from
the source carries a distance. -/
theorem complete_of_empty {g : GraphManager} {s : ℕ} {st : DState}
    (hw : NonnegWeights g) (hInv : Inv g s st) (hempty : st.heap = []) :
    ∀ {t : ℕ} {c : ℚ}, PathCost g s t c → ∃ dv, st.dist t = some dv := by
  intro t c hpath
  obtain ⟨hb, hrel⟩ := hInv
  by_cases ht : t ∈ st.visited
  · exact hb.visDist t ht
  · obtain ⟨p, hp, _⟩ := cover hw hb hrel hpath ht
    rw [hempty] at hp
    cases hp

/-- The recorded distance of a visited vertex is the least path cost. -/
theorem visited_isLeast {g : GraphManager} {s : ℕ} {st : DState}
    (hb : InvBase g s st) {v : ℕ} (hv : v ∈ st.visited) {dv : ℚ}
    (hdv : st.dist v = some dv) : IsLeast {c : ℚ | PathCost g s v c} dv :=
  ⟨hb.sound v dv hdv, fun c hc => hb.visOpt v hv dv c hdv hc⟩

theorem visited_length_le {g : GraphManager} {s : ℕ} {st : DState}
    (hb : InvBase g s st) : st.visited.length ≤ (nodeUniverse g s).card := by
  have h1 : st.visited.toFinset.card = st.visited.length :=
    List.toFinset_card_of_nodup hb.visNodup
  rw [← h1]
  apply Finset.card_le_card
  intro v hv
  exact hb.visUniv v (List.mem_toFinset.mp hv)

theorem spd_eq (g : GraphManager) (s t : ℕ) (h : g.has_node s ∧ g.has_node t) :
    shortest_path_and_distance g s t =
      finishPath (dijkstraLoop g s (some t) (initState s)).dist
        (dijkstraLoop g s (some t) (initState s)).prev s t (dijkstraFuel g s) := by
  unfold shortest_path_and_distance
  rw [if_pos h]

/-- Full functional characterization of `shortest_path_and_distance` for
non-negative weights and endpoints present in the view. -/
theorem spd_spec (g : GraphManager) (s t : ℕ)
    (hw : NonnegWeights g) (hs : g.has_node s) (ht : g.has_node t) :
    (shortest_path_and_distance g s t = (none, []) ↔ ¬ Reachable g s t) ∧
    (∀ d p, shortest_path_and_distance g s t = (some d, p) →
      IsLeast {c : ℚ | PathCost g s t c} d ∧ 0 ≤ d) ∧
    (Reachable g s t → ∃ d p, shortest_path_and_distance g s t = (some d, p)) := by
  obtain ⟨hbfin, hdisj⟩ := dijkstraLoop_post g s (some t) hw (initState s) (initState_inv g s)
  have hspd := spd_eq g s t ⟨hs, ht⟩
  rcases hdt : (dijkstraLoop g s (some t) (initState s)).dist t with _ | d0
  · have hres : shortest_path_and_distance g s t = (none, []) := by
      rw [hspd]
      unfold finishPath
      rw [hdt]
    have hnreach : ¬ Reachable g s t := by
      rintro ⟨c, hc⟩
      rcases hdisj with ⟨hempty, hInvf⟩ | ⟨t2, ht2eq, ht2vis⟩
      · obtain ⟨dv, hdv⟩ := complete_of_empty hw hInvf hempty hc
        rw [hdt] at hdv
        cases hdv
      · have ht2 : t2 = t := by
          rw [Option.some.injEq] at ht2eq
          exact ht2eq.symm
        subst ht2
        obtain ⟨dv, hdv⟩ := hbfin.visDist t2 ht2vis
        rw [hdt] at hdv
        cases hdv
    refine ⟨⟨fun _ => hnreach, fun _ => hres⟩, ?_, ?_⟩
    · intro d p hp
      rw [hres] at hp
      rw [Prod.mk.injEq] at hp
      cases hp.1
    · intro hreach
      exact absurd hreach hnreach
  · have htvis : t ∈ (dijkstraLoop g s (some t) (initState s)).visited := by
      rcases hdisj with ⟨hempty, _⟩ | ⟨t2, ht2eq, ht2vis⟩
      · exact dist_visited_of_empty hbfin hempty t d0 hdt
      · have ht2 : t2 = t := by
          rw [Option.some.injEq] at ht2eq
          exact ht2eq.symm
        exact ht2 ▸ ht2vis
    have hleast : IsLeast {c : ℚ | PathCost g s t c} d0 :=
      visited_isLeast hbfin htvis hdt
    have hlen : (dijkstraLoop g s (some t) (initState s)).visited.length <
        dijkstraFuel g s := Nat.lt_succ_of_le (visited_length_le hbfin)
    obtain ⟨p0, hp0⟩ := pathWalk_isSome_of_chain (hbfin.chain t htvis) hlen
    have hres : shortest_path_and_distance g s t = (some d0, p0) := by
      rw [hspd]
      unfold finishPath
      rw [hdt, hp0]
    have hreach : Reachable g s t := ⟨d0, hbfin.sound t d0 hdt⟩
    refine ⟨⟨?_, ?_⟩, ?_, ?_⟩
    · intro h
      rw [hres] at h
      rw [Prod.mk.injEq] at h
      cases h.1
    · intro hnreach
      exact absurd hreach hnreach
    · intro d p hp
      rw [hres] at hp
      rw [Prod.mk.injEq, Option.some.injEq] at hp
      rw [← hp.1]
      exact ⟨hleast, PathCost.cost_nonneg hw hleast.1⟩
    · intro _
      exact ⟨d0, p0, hres⟩

theorem mem_neighbors_elim {g : GraphManager} {u : ℕ} {e : AdjEntry}
    (h : e ∈ g.neighbors u) : u ∈ g.adjKeys ∧ e ∈ g.adjList u := by
  unfold GraphManager.neighbors at h
  by_cases hu : u ∈ g.adjKeys
  · rw [if_pos hu] at h
    exact ⟨hu, h⟩
  · rw [if_neg hu] at h
    cases h

/-- The concrete three-vertex view of spec §8 (A=1, B=2, C=3; edges
A→B weight 5, B→C weight 5, A→C weight 20), used by witnesses. -/
def demoG : GraphManager :=
  { adjKeys := [1, 2, 3]
    adjList := fun k =>
      if k = 1 then [(2, 5, 1), (3, 20, 3)]
      else if k = 2 then [(3, 5, 2)]
      else []
    edges := fun _ => none }

theorem demoG_nonneg : NonnegWeights demoG := by
  intro u e he
  obtain ⟨hu, he2⟩ := mem_neighbors_elim he
  have hu3 : u = 1 ∨ u = 2 ∨ u = 3 := by simpa [demoG] using hu
  rcases hu3 with rfl | rfl | rfl <;> simp [demoG] at he2 <;>
    rcases he2 with rfl | rfl <;> norm_num

theorem demoG_closed : ClosedView demoG := by
  intro u e he
  obtain ⟨hu, he2⟩ := mem_neighbors_elim he
  have hu3 : u = 1 ∨ u = 2 ∨ u = 3 := by simpa [demoG] using hu
  rcases hu3 with rfl | rfl | rfl <;> simp [demoG] at he2 <;>
    rcases he2 with rfl | rfl <;> decide

theorem demoG_spd : shortest_path_and_distance demoG 1 3 = (some 10, [1, 2, 3]) := by
  rw [spd_eq demoG 1 3 ⟨by decide, by decide⟩]
  rw [@dijkstraLoop_eq_getD demoG 1 (some 3) 10 (initState 1)
    (by norm_num [dijkstraLoopFuel, popMin, pairLe, relaxAll, relax, initState,
      GraphManager.neighbors, demoG])]
  norm_num [dijkstraLoopFuel, popMin, pairLe, relaxAll, relax, initState,
    GraphManager.neighbors, demoG, finishPath, pathWalk, dijkstraFuel]

/-- C1: for non-negative weights and endpoints present in the view,
`shortest_path_and_distance` returns the unreachable pair `(none, [])`
exactly when no directed path exists, and otherwise a distance that is the
minimum path cost (in particular non-negative), together with a path. -/
theorem C1_shortest_path_correct (g : GraphManager) (s t : ℕ)
    (hw : NonnegWeights g) (hs : g.has_node s) (ht : g.has_node t) :
    (shortest_path_and_distance g s t = (none, []) ↔ ¬ Reachable g s t) ∧
    (∀ d p, shortest_path_and_distance g s t = (some d, p) →
      IsLeast {c : ℚ | PathCost g s t c} d ∧ 0 ≤ d) ∧
    (Reachable g s t → ∃ d p, shortest_path_and_distance g s t = (some d, p)) :=
  spd_spec g s t hw hs ht

/-- Witness for C1 on the concrete spec §8 scenario. -/
theorem C1_shortest_path_correct_witness :
    IsLeast {c : ℚ | PathCost demoG 1 3 c} 10 ∧ (0 : ℚ) ≤ 10 :=
  (C1_shortest_path_correct demoG 1 3 demoG_nonneg (by decide) (by decide)).2.1
    10 [1, 2, 3] demoG_spd

/-! ## C2: `find_nearest_hospital` agrees with per-target shortest paths -/

theorem pathcost_node {g : GraphManager} (hclosed : ClosedView g) :
    ∀ {u t : ℕ} {c : ℚ}, PathCost g u t c → g.has_node u → g.has_node t := by
  intro u t c h
  induction h with
  | single v => exact id
  | cons he _ ih => exact fun _ => ih (hclosed _ _ he)

theorem not_node_unreachable {g : GraphManager} {s t : ℕ} (hclosed : ClosedView g)
    (hs : g.has_node s) (ht : ¬ g.has_node t) : ¬ Reachable g s t := by
  rintro ⟨c, hc⟩
  exact ht (pathcost_node hclosed hc hs)

theorem spd_not_node {g : GraphManager} {s t : ℕ}
    (h : ¬ (g.has_node s ∧ g.has_node t)) :
    shortest_path_and_distance g s t = (none, []) := by
  unfold shortest_path_and_distance
  rw [if_neg h]

/-- The distance map computed by the full (never-breaking) Dijkstra run
agrees pointwise with the first component of `shortest_path_and_distance`,
on closed views with non-negative weights. -/
theorem spd_fst_eq_loopdist {g : GraphManager} {s : ℕ} (hw : NonnegWeights g)
    (hclosed : ClosedView g) (hs : g.has_node s) (t : ℕ) :
    (shortest_path_and_distance g s t).1 =
      (dijkstraLoop g s none (initState s)).dist t := by
  obtain ⟨hbfin, hdisj⟩ := dijkstraLoop_post g s none hw (initState s) (initState_inv g s)
  have hfull : (dijkstraLoop g s none (initState s)).heap = [] ∧
      Inv g s (dijkstraLoop g s none (initState s)) := by
    rcases hdisj with h | ⟨t2, ht2, _⟩
    · exact h
    · cases ht2
  by_cases ht : g.has_node t
  · rcases hdt : (dijkstraLoop g s none (initState s)).dist t with _ | dv
    · have hnr : ¬ Reachable g s t := by
        rintro ⟨c, hc⟩
        obtain ⟨dv, hdv⟩ := complete_of_empty hw hfull.2 hfull.1 hc
        rw [hdt] at hdv
        cases hdv
      rw [(spd_spec g s t hw hs ht).1.mpr hnr]
    · have htvis := dist_visited_of_empty hbfin hfull.1 t dv hdt
      have hleast := visited_isLeast hbfin htvis hdt
      have hreach : Reachable g s t := ⟨dv, hbfin.sound t dv hdt⟩
      obtain ⟨d, p, hdp⟩ := (spd_spec g s t hw hs ht).2.2 hreach
      have hleast2 := ((spd_spec g s t hw hs ht).2.1 d p hdp).1
      rw [hdp]
      rw [hleast2.unique hleast]
  · rw [spd_not_node (fun hand => ht hand.2)]
    rcases hdt : (dijkstraLoop g s none (initState s)).dist t with _ | dv
    · rfl
    · have : Reachable g s t := ⟨dv, hbfin.sound t dv hdt⟩
      exact absurd this (not_node_unreachable hclosed hs ht)

/-- Accumulator invariant of the hospital selection scan. -/
def AccGood (dist : ℕ → Option ℚ) (seen : List ℕ) (acc : Option ℕ × Option ℚ) : Prop :=
  (acc = (none, none) ∧ ∀ h ∈ seen, dist h = none) ∨
  (∃ b d, acc = (some b, some d) ∧ b ∈ seen ∧ dist b = some d ∧
    ∀ h ∈ seen, ∀ dh, dist h = some dh → d ≤ dh)

theorem AccGood.mem_congr {dist : ℕ → Option ℚ} {l1 l2 : List ℕ}
    {acc : Option ℕ × Option ℚ} (h : AccGood dist l1 acc)
    (hmem : ∀ x, x ∈ l1 ↔ x ∈ l2) : AccGood dist l2 acc := by
  rcases h with ⟨hacc, hall⟩ | ⟨b, d, hacc, hb, hdb, hmin⟩
  · exact Or.inl ⟨hacc, fun x hx => hall x ((hmem x).mpr hx)⟩
  · exact Or.inr ⟨b, d, hacc, (hmem b).mp hb, hdb,
      fun x hx dx hdx => hmin x ((hmem x).mpr hx) dx hdx⟩

theorem scanStep_good {dist : ℕ → Option ℚ} {seen : List ℕ}
    {acc : Option ℕ × Option ℚ} (hgood : AccGood dist seen acc) (h : ℕ) :
    AccGood dist (h :: seen) (scanStep dist acc h) := by
  rcases hd : dist h with _ | d
  · have hstep : scanStep dist acc h = acc := by
      unfold scanStep
      rw [hd]
    rw [hstep]
    rcases hgood with ⟨hacc, hall⟩ | ⟨b, db, hacc, hb, hdb, hmin⟩
    · refine Or.inl ⟨hacc, ?_⟩
      intro x hx
      rcases List.mem_cons.mp hx with rfl | hx
      · exact hd
      · exact hall x hx
    · refine Or.inr ⟨b, db, hacc, List.mem_cons_of_mem h hb, hdb, ?_⟩
      intro x hx dx hdx
      rcases List.mem_cons.mp hx with rfl | hx
      · rw [hd] at hdx
        cases hdx
      · exact hmin x hx dx hdx
  · rcases hgood with ⟨hacc, hall⟩ | ⟨b, db, hacc, hb, hdb, hmin⟩
    · have hstep : scanStep dist acc h = (some h, some d) := by
        unfold scanStep
        rw [hd, hacc]
      rw [hstep]
      refine Or.inr ⟨h, d, rfl, List.mem_cons_self h seen, hd, ?_⟩
      intro x hx dx hdx
      rcases List.mem_cons.mp hx with rfl | hx
      · rw [hd] at hdx
        rw [Option.some.injEq] at hdx
        rw [hdx]
      · rw [hall x hx] at hdx
        cases hdx
    · by_cases hlt : d < db
      · have hstep : scanStep dist acc h = (some h, some d) := by
          unfold scanStep
          rw [hd, hacc]
          dsimp only
          rw [if_pos hlt]
        rw [hstep]
        refine Or.inr ⟨h, d, rfl, List.mem_cons_self h seen, hd, ?_⟩
        intro x hx dx hdx
        rcases List.mem_cons.mp hx with rfl | hx
        · rw [hd] at hdx
          rw [Option.some.injEq] at hdx
          rw [hdx]
        · exact le_of_lt (lt_of_lt_of_le hlt (hmin x hx dx hdx))
      · have hstep : scanStep dist acc h = acc := by
          unfold scanStep
          rw [hd, hacc]
          dsimp only
          rw [if_neg hlt]
        rw [hstep]
        refine Or.inr ⟨b, db, hacc, List.mem_cons_of_mem h hb, hdb, ?_⟩
        intro x hx dx hdx
        rcases List.mem_cons.mp hx with rfl | hx
        · rw [hd] at hdx
          rw [Option.some.injEq] at hdx
          rw [← hdx]
          exact le_of_not_lt hlt
        · exact hmin x hx dx hdx

theorem scan_fold_good {dist : ℕ → Option ℚ} :
    ∀ (ids : List ℕ) (seen : List ℕ) (acc : Option ℕ × Option ℚ),
      AccGood dist seen acc →
      AccGood dist (ids ++ seen) (List.foldl (scanStep dist) acc ids) := by
  intro ids
  induction ids with
  | nil =>
    intro seen acc h
    exact h
  | cons h tl ih =>
    intro seen acc hgood
    rw [List.foldl_cons]
    have := ih (h :: seen) (scanStep dist acc h) (scanStep_good hgood h)
    refine this.mem_congr ?_
    intro x
    simp only [List.mem_append, List.mem_cons]
    tauto

theorem bestScan_good (dist : ℕ → Option ℚ) (ids : List ℕ) :
    AccGood dist ids (bestScan dist ids) := by
  have h0 : AccGood dist [] ((none, none) : Option ℕ × Option ℚ) :=
    Or.inl ⟨rfl, fun x hx => absurd hx (List.not_mem_nil x)⟩
  have := scan_fold_good ids [] (none, none) h0
  rw [List.append_nil] at this
  exact this

theorem fnh_eq (g : GraphManager) (s : ℕ) (targets : List ℕ) (hs : g.has_node s) :
    find_nearest_hospital g s targets =
      { best_hospital_id := (bestScan (dijkstraLoop g s none (initState s)).dist
          targets.dedup).1
        best_distance := (bestScan (dijkstraLoop g s none (initState s)).dist
          targets.dedup).2
        distances := (dijkstraLoop g s none (initState s)).dist } := by
  unfold find_nearest_hospital
  rw [if_pos hs]

/-- C2: on a closed view with non-negative weights and a source in the view,
`find_nearest_hospital` returns no winner exactly when
`shortest_path_and_distance` finds no target reachable, and otherwise a
winner from the target list whose distance agrees with
`shortest_path_and_distance` and is minimal among all targets' distances. -/
theorem C2_find_nearest_matches_spd (g : GraphManager) (s : ℕ) (targets : List ℕ)
    (hw : NonnegWeights g) (hclosed : ClosedView g) (hs : g.has_node s) :
    ((find_nearest_hospital g s targets).best_hospital_id = none ↔
      ∀ t ∈ targets, (shortest_path_and_distance g s t).1 = none) ∧
    (∀ b, (find_nearest_hospital g s targets).best_hospital_id = some b →
      ∃ d, (find_nearest_hospital g s targets).best_distance = some d ∧
        b ∈ targets ∧ (shortest_path_and_distance g s b).1 = some d ∧
        ∀ t ∈ targets, ∀ dt, (shortest_path_and_distance g s t).1 = some dt →
          d ≤ dt) := by
  have hgood0 := bestScan_good (dijkstraLoop g s none (initState s)).dist targets.dedup
  have hgood : AccGood (dijkstraLoop g s none (initState s)).dist targets
      (bestScan (dijkstraLoop g s none (initState s)).dist targets.dedup) :=
    hgood0.mem_congr (fun x => List.mem_dedup)
  rw [fnh_eq g s targets hs]
  constructor
  · constructor
    · intro hnone t htmem
      rcases hgood with ⟨hacc, hall⟩ | ⟨b, d, hacc, _, _, _⟩
      · rw [spd_fst_eq_loopdist hw hclosed hs t]
        exact hall t htmem
      · rw [Prod.mk.injEq] at hacc
        dsimp only at hnone
        rw [hacc.1] at hnone
        cases hnone
    · intro hall
      rcases hgood with ⟨hacc, _⟩ | ⟨b, d, hacc, hbmem, hdb, _⟩
      · dsimp only
        rw [Prod.mk.injEq] at hacc
        rw [hacc.1]
      · have := hall b hbmem
        rw [spd_fst_eq_loopdist hw hclosed hs b, hdb] at this
        cases this
  · intro b hb
    dsimp only at hb
    rcases hgood with ⟨hacc, _⟩ | ⟨b2, d, hacc, hbmem, hdb, hmin⟩
    · rw [Prod.mk.injEq] at hacc
      rw [hacc.1] at hb
      cases hb
    · rw [Prod.mk.injEq] at hacc
      rw [hacc.1] at hb
      rw [Option.some.injEq] at hb
      subst hb
      refine ⟨d, ?_, hbmem, ?_, ?_⟩
      · dsimp only
        rw [hacc.2]
      · rw [spd_fst_eq_loopdist hw hclosed hs b2]
        exact hdb
      · intro t htmem dt hdt
        rw [spd_fst_eq_loopdist hw hclosed hs t] at hdt
        exact hmin t htmem dt hdt

theorem option_none_ne_some (a : ℕ) : ((none : Option ℕ) = some a) = False := by
  apply eq_false
  intro h
  cases h

theorem demoG_fnh : (find_nearest_hospital demoG 1 [3, 2]).best_hospital_id = some 2 := by
  rw [fnh_eq demoG 1 [3, 2] (by decide)]
  rw [@dijkstraLoop_eq_getD demoG 1 none 10 (initState 1)
    (by norm_num [dijkstraLoopFuel, popMin, pairLe, relaxAll, relax, initState,
      GraphManager.neighbors, demoG, option_none_ne_some])]
  have hded : ([3, 2] : List ℕ).dedup = [3, 2] := by decide
  rw [hded]
  norm_num [bestScan, scanStep, dijkstraLoopFuel, popMin, pairLe, relaxAll, relax,
    initState, GraphManager.neighbors, demoG, option_none_ne_some]

/-- Witness for C2 on the spec §8 view with hospital candidates `[3, 2]`. -/
theorem C2_find_nearest_matches_spd_witness :
    ∃ d, (find_nearest_hospital demoG 1 [3, 2]).best_distance = some d ∧
      2 ∈ [3, 2] ∧ (shortest_path_and_distance demoG 1 2).1 = some d ∧
      ∀ t ∈ [3, 2], ∀ dt, (shortest_path_and_distance demoG 1 t).1 = some dt →
        d ≤ dt :=
  (C2_find_nearest_matches_spd demoG 1 [3, 2] demoG_nonneg demoG_closed
    (by decide)).2 2 demoG_fnh

/-! ## C6: behaviour on a broken predecessor chain

`shortest_path.py` lines 43-58 (`finishPath` here) handle the case where the
target has a finalized distance but the predecessor walk fails: the comment
reads "path broken (shouldn't happen), bail out" and the function returns
`None, []` — the same value as the ordinary unreachable outcome.  No distinct
inconsistent-state error exists in the function's codomain. -/

/-- C6 counterexample: a state with a finalized target distance and a broken
predecessor chain, on which the post-loop phase returns exactly the ordinary
unreachable pair `(none, [])` instead of a distinct error. -/
theorem C6_counterexample :
    (fun k => if k = 1 then some (5 : ℚ) else none) 1 = some 5 ∧
    pathWalk (fun _ => none) 0 1 7 = none ∧
    finishPath (fun k => if k = 1 then some (5 : ℚ) else none)
      (fun _ => none) 0 1 7 = (none, []) := by
  refine ⟨rfl, ?_, ?_⟩
  · norm_num [pathWalk]
  · norm_num [finishPath, pathWalk]

/-- C6 amended: whenever the target holds a finalized distance but walking
the predecessor pointers fails, the post-loop phase of
`shortest_path_and_distance` silently returns the ordinary unreachable pair
`(none, [])`; no distinct inconsistent-state error is reported. -/
theorem C6_broken_chain_silent (dist : ℕ → Option ℚ) (prv : ℕ → Option ℕ)
    (s t : ℕ) (fuel : ℕ) (d : ℚ) (hd : dist t = some d)
    (hwalk : pathWalk prv s t fuel = none) :
    finishPath dist prv s t fuel = (none, []) := by
  unfold finishPath
  rw [hd, hwalk]

theorem C6_broken_chain_silent_witness :
    finishPath (fun k => if k = 1 then some (5 : ℚ) else none)
      (fun _ => none) 0 1 7 = (none, []) :=
  C6_broken_chain_silent (fun k => if k = 1 then some (5 : ℚ) else none)
    (fun _ => none) 0 1 7 5 rfl (by norm_num [pathWalk])

/-! ## Remaining database records (`app/db/models.py`) and the database
snapshot used by the routing-layer functions.  Times are UTC seconds. -/

structure AmbulanceRec where
  id : ℕ
  status : String
  current_node : Option ℕ
  deriving DecidableEq, Repr

structure EmergencyRequestRec where
  id : ℕ
  source_node : Option ℕ
  destination_node : Option ℕ
  status : String
  completed_at : Option ℕ
  deriving DecidableEq, Repr

structure AssignmentRec where
  id : ℕ
  ambulance_id : ℕ
  emergency_request_id : ℕ
  eta : ℚ
  status : String
  deriving DecidableEq, Repr

/-- `Roadblock`: `edge` is the ORM relationship `rb.edge` (absent when the
referenced edge row does not exist, in which case the SQL join drops the
roadblock and the later `if edge:` guard would skip it). -/
structure RoadblockRec where
  edge : Option EdgeRec
  start_time : ℕ
  end_time : Option ℕ
  deriving DecidableEq, Repr

structure TrafficUpdateRec where
  edge : Option EdgeRec
  new_weight : ℚ
  deriving DecidableEq, Repr

structure DB where
  nodes : List NodeRec
  edges : List EdgeRec
  roadblocks : List RoadblockRec
  traffic_updates : List TrafficUpdateRec
  ambulances : List AmbulanceRec
  emergency_requests : List EmergencyRequestRec
  assignments : List AssignmentRec

/-! ## Traffic overlay (`traffic_manager.py`) -/

/-- The `join(Edge.from_node_rel).filter(Node.city_id == city_id)` condition:
the edge's from-node row exists and belongs to the city. -/
def edgeFromInCity (db : DB) (city_id : ℕ) (e : EdgeRec) : Prop :=
  ∃ n ∈ db.nodes, n.id = e.from_node ∧ n.city_id = some city_id

instance (db : DB) (city_id : ℕ) (e : EdgeRec) : Decidable (edgeFromInCity db city_id e) :=
  inferInstanceAs (Decidable (∃ n ∈ db.nodes, _ ∧ _))

/-- The active-roadblock query (traffic_manager.py lines 37-45):
`start_time <= now` and (`end_time` NULL or `end_time >= now`), joined
through the edge to a from-node in the city. -/
def roadblockActive (db : DB) (city_id now : ℕ) (rb : RoadblockRec) : Bool :=
  match rb.edge with
  | none => false
  | some e =>
    decide (edgeFromInCity db city_id e ∧ rb.start_time ≤ now ∧
      (rb.end_time = none ∨ ∃ et, rb.end_time = some et ∧ now ≤ et))

/-- `blocked_edges` (traffic_manager.py lines 47-51): the `(from, to)`
pairs of actively blocked edges. -/
def blockedPairs (db : DB) (city_id now : ℕ) : List (ℕ × ℕ) :=
  (db.roadblocks.filter (roadblockActive db city_id now)).filterMap
    (fun rb => rb.edge.map (fun e => (e.from_node, e.to_node)))

/-- Pass 1 (traffic_manager.py lines 53-60): drop every adjacency entry
whose `(from, neighbor)` pair is blocked. -/
def removeClosures (g : GraphManager) (blocked : List (ℕ × ℕ)) : GraphManager :=
  { g with adjList := fun k =>
      (g.adjList k).filter (fun entry => decide ((k, entry.1) ∉ blocked)) }

/-- `peak_hours` (traffic_manager.py line 67). -/
def peakHours : List ℕ := [7, 8, 9, 16, 17, 18]

/-- `now.hour` for a UTC-seconds timestamp. -/
def hourOfTime (now : ℕ) : ℕ := now / 3600 % 24

/-- The city-filtered congestion-update query (traffic_manager.py
lines 70-76). -/
def cityTrafficUpdates (db : DB) (city_id : ℕ) : List TrafficUpdateRec :=
  db.traffic_updates.filter (fun tu =>
    match tu.edge with
    | none => false
    | some e => decide (edgeFromInCity db city_id e))

/-- `traffic_weights` (traffic_manager.py lines 80-85): a
`(from, to) -> new_weight` lookup built by iteration (later updates
overwrite earlier ones, as in a Python dict). -/
def trafficWeights (tus : List TrafficUpdateRec) : (ℕ × ℕ) → Option ℚ :=
  List.foldl
    (fun m tu =>
      match tu.edge with
      | none => m
      | some e => fun p =>
          if p = (e.from_node, e.to_node) then some tu.new_weight else m p)
    (fun _ => none) tus

/-- Pass 2 (traffic_manager.py lines 87-97): rewrite each surviving entry's
weight when a congestion update matches, keeping neighbor and edge id. -/
def applyTrafficWeights (g : GraphManager) (tw : (ℕ × ℕ) → Option ℚ) : GraphManager :=
  { g with adjList := fun k =>
      (g.adjList k).map (fun entry =>
        match tw (k, entry.1) with
        | some nw => (entry.1, nw, entry.2.2)
        | none => entry) }

/-- `apply_dynamic_traffic` (traffic_manager.py lines 19-97): closures are
removed first, then the peak-hour-gated congestion rewrite is applied.
`now` (read from the wall clock inside the Python function) is a
parameter. -/
def apply_dynamic_traffic (g : GraphManager) (db : DB) (city_id now : ℕ) :
    GraphManager :=
  let blocked := blockedPairs db city_id now
  let g1 := removeClosures g blocked
  let tus := if hourOfTime now ∈ peakHours then cityTrafficUpdates db city_id else []
  applyTrafficWeights g1 (trafficWeights tus)

theorem removeClosures_neighbors (g : GraphManager) (blocked : List (ℕ × ℕ)) (k : ℕ) :
    (removeClosures g blocked).neighbors k =
      (g.neighbors k).filter (fun entry => decide ((k, entry.1) ∉ blocked)) := by
  unfold removeClosures GraphManager.neighbors
  by_cases hk : k ∈ g.adjKeys
  · rw [if_pos hk, if_pos hk]
  · rw [if_neg hk, if_neg hk]
    rfl

theorem applyTrafficWeights_neighbors (g : GraphManager) (tw : (ℕ × ℕ) → Option ℚ)
    (k : ℕ) :
    (applyTrafficWeights g tw).neighbors k =
      (g.neighbors k).map (fun entry =>
        match tw (k, entry.1) with
        | some nw => (entry.1, nw, entry.2.2)
        | none => entry) := by
  unfold applyTrafficWeights GraphManager.neighbors
  by_cases hk : k ∈ g.adjKeys
  · rw [if_pos hk, if_pos hk]
  · rw [if_neg hk, if_neg hk]
    rfl

theorem mem_blockedPairs {db : DB} {city_id now : ℕ} {rb : RoadblockRec}
    {e : EdgeRec} (hrb : rb ∈ db.roadblocks) (hedge : rb.edge = some e)
    (hcity : edgeFromInCity db city_id e) (hstart : rb.start_time ≤ now)
    (hend : rb.end_time = none ∨ ∃ et, rb.end_time = some et ∧ now ≤ et) :
    (e.from_node, e.to_node) ∈ blockedPairs db city_id now := by
  unfold blockedPairs
  apply List.mem_filterMap.mpr
  refine ⟨rb, ?_, ?_⟩
  · apply List.mem_filter.mpr
    refine ⟨hrb, ?_⟩
    unfold roadblockActive
    rw [hedge]
    exact decide_eq_true ⟨hcity, hstart, hend⟩
  · rw [hedge]
    rfl

/-- C4: after `apply_dynamic_traffic`, no adjacency entry survives whose
`(from, to)` pair has an active closure with both endpoints in the city;
the congestion rewrite that runs afterwards never re-inserts it. -/
theorem C4_closures_removed_permanently (g : GraphManager) (db : DB)
    (city_id now : ℕ) (rb : RoadblockRec) (e : EdgeRec)
    (hrb : rb ∈ db.roadblocks) (hedge : rb.edge = some e)
    (hstart : rb.start_time ≤ now)
    (hend : rb.end_time = none ∨ ∃ et, rb.end_time = some et ∧ now ≤ et)
    (hfrom : ∃ n ∈ db.nodes, n.id = e.from_node ∧ n.city_id = some city_id)
    (hto : ∃ n ∈ db.nodes, n.id = e.to_node ∧ n.city_id = some city_id) :
    ∀ k : ℕ, ∀ entry ∈ (apply_dynamic_traffic g db city_id now).neighbors k,
      ¬ (k = e.from_node ∧ entry.1 = e.to_node) := by
  intro k entry hmem hkentry
  have hblocked : (e.from_node, e.to_node) ∈ blockedPairs db city_id now :=
    mem_blockedPairs hrb hedge hfrom hstart hend
  unfold apply_dynamic_traffic at hmem
  rw [applyTrafficWeights_neighbors] at hmem
  obtain ⟨entry0, hmem0, hrw⟩ := List.mem_map.mp hmem
  rw [removeClosures_neighbors] at hmem0
  obtain ⟨_, hpass⟩ := List.mem_filter.mp hmem0
  rw [decide_eq_true_eq] at hpass
  apply hpass
  have h1 : entry.1 = entry0.1 := by
    rcases htw : trafficWeights
        (if hourOfTime now ∈ peakHours then cityTrafficUpdates db city_id else [])
        (k, entry0.1) with _ | nw
    · rw [htw] at hrw
      rw [← hrw]
    · rw [htw] at hrw
      rw [← hrw]
  rw [hkentry.1, ← h1, hkentry.2]
  exact hblocked

theorem trafficWeights_nil : trafficWeights [] = fun _ => none := rfl

/-- C5: a congestion update rewrites a surviving entry's weight only during
the fixed peak hours {7, 8, 9, 16, 17, 18}; outside them the rewrite pass is
an identity on the closure-filtered adjacency (updates ignored, not
deleted), and any rewrite that is applied keeps the entry's neighbor and
edge identity. -/
theorem C5_congestion_peak_gated (g : GraphManager) (db : DB) (city_id now : ℕ) :
    (hourOfTime now ∉ peakHours →
      ∀ k : ℕ, (apply_dynamic_traffic g db city_id now).neighbors k =
        (removeClosures g (blockedPairs db city_id now)).neighbors k) ∧
    (∀ k : ℕ, ∀ entry ∈ (apply_dynamic_traffic g db city_id now).neighbors k,
      ∃ entry0 ∈ (removeClosures g (blockedPairs db city_id now)).neighbors k,
        entry.1 = entry0.1 ∧ entry.2.2 = entry0.2.2) := by
  constructor
  · intro hpeak k
    unfold apply_dynamic_traffic
    rw [if_neg hpeak, applyTrafficWeights_neighbors, trafficWeights_nil]
    exact List.map_id'' (fun x => rfl) _
  · intro k entry hmem
    unfold apply_dynamic_traffic at hmem
    rw [applyTrafficWeights_neighbors] at hmem
    obtain ⟨entry0, hmem0, hrw⟩ := List.mem_map.mp hmem
    refine ⟨entry0, hmem0, ?_⟩
    rcases htw : trafficWeights
        (if hourOfTime now ∈ peakHours then cityTrafficUpdates db city_id else [])
        (k, entry0.1) with _ | nw
    · rw [htw] at hrw
      exact ⟨by rw [← hrw], by rw [← hrw]⟩
    · rw [htw] at hrw
      exact ⟨by rw [← hrw], by rw [← hrw]⟩

/-! ## Graph builder (`graph_manager.py` lines 87-145) -/

/-- `_compute_effective_weight` (graph_manager.py lines 87-104): `None`
(skip) only when `is_active is False`; otherwise the adjusted weight when
present, else the base weight. -/
def _compute_effective_weight (e : EdgeRec) : Option ℚ :=
  if e.is_active = some false then none
  else
    match e.adjusted_weight with
    | some a => some a
    | none => some e.weight

/-- One step of the edge-population loop (graph_manager.py lines 139-143):
append the adjacency entry and record the edge for identity lookup when the
effective weight exists. -/
def addEdge (g : GraphManager) (e : EdgeRec) : GraphManager :=
  match _compute_effective_weight e with
  | none => g
  | some w =>
    { g with
      adjList := fun k =>
        if k = e.from_node then g.adjList k ++ [(e.to_node, w, e.id)] else g.adjList k
      edges := fun i => if i = e.id then some e else g.edges i }

/-- The ids of the city's nodes (graph_manager.py lines 121-125). -/
def cityNodeIds (db : DB) (city_id : ℕ) : List ℕ :=
  (db.nodes.filter (fun n => decide (n.city_id = some city_id))).map (fun n => n.id)

/-- The edges whose both endpoints belong to the city's node set
(graph_manager.py lines 130-136). -/
def cityEdges (db : DB) (city_id : ℕ) : List EdgeRec :=
  db.edges.filter (fun e =>
    decide (e.from_node ∈ cityNodeIds db city_id) &&
    decide (e.to_node ∈ cityNodeIds db city_id))

/-- `build_graph_for_city` (graph_manager.py lines 107-145). -/
def build_graph_for_city (db : DB) (city_id : ℕ) : GraphManager :=
  List.foldl addEdge
    { adjKeys := cityNodeIds db city_id, adjList := fun _ => [], edges := fun _ => none }
    (cityEdges db city_id)

theorem addEdge_adjKeys (g : GraphManager) (e : EdgeRec) :
    (addEdge g e).adjKeys = g.adjKeys := by
  unfold addEdge
  rcases _compute_effective_weight e with _ | w
  · rfl
  · rfl

theorem foldl_addEdge_adjKeys (l : List EdgeRec) :
    ∀ g : GraphManager, (List.foldl addEdge g l).adjKeys = g.adjKeys := by
  induction l with
  | nil => intro g; rfl
  | cons e tl ih =>
    intro g
    rw [List.foldl_cons, ih, addEdge_adjKeys]

/-- The edge-record invariant carried through the population loop
(`src` is the list of loaded edges being inserted). -/
def BuildProps (src : List EdgeRec) (g : GraphManager) : Prop :=
  (∀ i e, g.edges i = some e →
    e ∈ src ∧ e.id = i ∧ _compute_effective_weight e ≠ none) ∧
  (∀ k : ℕ, ∀ entry ∈ g.adjList k,
    ∃ e ∈ src, e.from_node = k ∧ e.to_node = entry.1 ∧ e.id = entry.2.2 ∧
      _compute_effective_weight e = some entry.2.1)

theorem addEdge_props {src : List EdgeRec} {g : GraphManager} {e : EdgeRec}
    (hp : BuildProps src g) (he : e ∈ src) : BuildProps src (addEdge g e) := by
  obtain ⟨hedges, hadj⟩ := hp
  unfold addEdge
  rcases hw : _compute_effective_weight e with _ | w
  · exact ⟨hedges, hadj⟩
  · constructor
    · intro i e2 hi
      dsimp only at hi
      by_cases hie : i = e.id
      · rw [if_pos hie] at hi
        rw [Option.some.injEq] at hi
        subst hi
        exact ⟨he, hie.symm, by rw [hw]; intro h; cases h⟩
      · rw [if_neg hie] at hi
        exact hedges i e2 hi
    · intro k entry hentry
      dsimp only at hentry
      by_cases hk : k = e.from_node
      · rw [if_pos hk] at hentry
        rcases List.mem_append.mp hentry with hentry | hentry
        · exact hadj k entry hentry
        · rw [List.mem_singleton] at hentry
          subst hentry
          exact ⟨e, he, hk.symm, rfl, rfl, hw⟩
      · rw [if_neg hk] at hentry
        exact hadj k entry hentry

theorem foldl_addEdge_props {src : List EdgeRec} (l : List EdgeRec)
    (hl : ∀ e ∈ l, e ∈ src) :
    ∀ g : GraphManager, BuildProps src g → BuildProps src (List.foldl addEdge g l) := by
  induction l with
  | nil => intro g hp; exact hp
  | cons e tl ih =>
    intro g hp
    rw [List.foldl_cons]
    exact ih (fun x hx => hl x (List.mem_cons_of_mem e hx)) _
      (addEdge_props hp (hl e (List.mem_cons_self e tl)))

theorem build_props (db : DB) (city_id : ℕ) :
    BuildProps (cityEdges db city_id) (build_graph_for_city db city_id) := by
  unfold build_graph_for_city
  apply foldl_addEdge_props
  · intro e hemem
    exact hemem
  · constructor
    · intro i e hi
      cases hi
    · intro k entry hentry
      cases hentry

theorem mem_cityEdges {db : DB} {city_id : ℕ} {e : EdgeRec}
    (h : e ∈ cityEdges db city_id) :
    e ∈ db.edges ∧ e.from_node ∈ cityNodeIds db city_id ∧
      e.to_node ∈ cityNodeIds db city_id := by
  obtain ⟨hmem, hcond⟩ := List.mem_filter.mp h
  rw [Bool.and_eq_true, decide_eq_true_eq, decide_eq_true_eq] at hcond
  exact ⟨hmem, hcond.1, hcond.2⟩

theorem build_adjKeys (db : DB) (city_id : ℕ) :
    (build_graph_for_city db city_id).adjKeys = cityNodeIds db city_id := by
  unfold build_graph_for_city
  rw [foldl_addEdge_adjKeys]

/-- Views built by `build_graph_for_city` satisfy the neighbor-closure
invariant of spec §3: both endpoints of every inserted edge belong to the
city's node set. -/
theorem build_closed (db : DB) (city_id : ℕ) :
    ClosedView (build_graph_for_city db city_id) := by
  intro u e he
  obtain ⟨_, he2⟩ := mem_neighbors_elim he
  obtain ⟨e0, he0mem, _, hto, _, _⟩ := (build_props db city_id).2 u e he2
  unfold GraphManager.has_node
  rw [build_adjKeys]
  rw [← hto]
  exact (mem_cityEdges he0mem).2.2

theorem build_has_node (db : DB) (city_id : ℕ) (v : ℕ) :
    (build_graph_for_city db city_id).has_node v ↔
      ∃ n ∈ db.nodes, n.id = v ∧ n.city_id = some city_id := by
  unfold build_graph_for_city GraphManager.has_node
  rw [foldl_addEdge_adjKeys]
  constructor
  · intro hv
    obtain ⟨n, hn, hnid⟩ := List.mem_map.mp hv
    obtain ⟨hnmem, hcity⟩ := List.mem_filter.mp hn
    rw [decide_eq_true_eq] at hcity
    exact ⟨n, hnmem, hnid, hcity⟩
  · rintro ⟨n, hnmem, hnid, hcity⟩
    apply List.mem_map.mpr
    refine ⟨n, List.mem_filter.mpr ⟨hnmem, ?_⟩, hnid⟩
    rw [decide_eq_true_eq]
    exact hcity

/-- C8: the built view has an adjacency entry (possibly empty) for exactly
the city's nodes; an edge whose `is_active` flag is `False` contributes
neither an identity-lookup entry nor any adjacency entry; and every
retained adjacency entry corresponds to a real edge of the store and
carries its effective weight (adjusted weight when present, else base
weight). -/
theorem C8_build_graph_for_city (db : DB) (city_id : ℕ)
    (hNodup : (db.edges.map (fun e => e.id)).Nodup) :
    (∀ v, (build_graph_for_city db city_id).has_node v ↔
      ∃ n ∈ db.nodes, n.id = v ∧ n.city_id = some city_id) ∧
    (∀ e ∈ db.edges, e.is_active = some false →
      (build_graph_for_city db city_id).edges e.id = none ∧
      ∀ k : ℕ, ∀ entry ∈ (build_graph_for_city db city_id).neighbors k,
        entry.2.2 ≠ e.id) ∧
    (∀ k : ℕ, ∀ entry ∈ (build_graph_for_city db city_id).neighbors k,
      ∃ e ∈ db.edges, e.from_node = k ∧ e.to_node = entry.1 ∧ e.id = entry.2.2 ∧
        e.is_active ≠ some false ∧
        entry.2.1 = (match e.adjusted_weight with
          | some a => a
          | none => e.weight)) := by
  have hinj : ∀ x ∈ db.edges, ∀ y ∈ db.edges, x.id = y.id → x = y :=
    List.inj_on_of_nodup_map hNodup
  obtain ⟨hedges0, hadj0⟩ := build_props db city_id
  have hedges : ∀ i e, (build_graph_for_city db city_id).edges i = some e →
      e ∈ db.edges ∧ e.id = i ∧ _compute_effective_weight e ≠ none := by
    intro i e hi
    obtain ⟨hmem, hrest⟩ := hedges0 i e hi
    exact ⟨(mem_cityEdges hmem).1, hrest⟩
  have hadj : ∀ k : ℕ, ∀ entry ∈ (build_graph_for_city db city_id).adjList k,
      ∃ e ∈ db.edges, e.from_node = k ∧ e.to_node = entry.1 ∧ e.id = entry.2.2 ∧
        _compute_effective_weight e = some entry.2.1 := by
    intro k entry hentry
    obtain ⟨e, hmem, hrest⟩ := hadj0 k entry hentry
    exact ⟨e, (mem_cityEdges hmem).1, hrest⟩
  have hneighbors : ∀ k : ℕ, ∀ entry ∈ (build_graph_for_city db city_id).neighbors k,
      entry ∈ (build_graph_for_city db city_id).adjList k := by
    intro k entry hmem
    exact (mem_neighbors_elim hmem).2
  have hretained : ∀ k : ℕ, ∀ entry ∈ (build_graph_for_city db city_id).neighbors k,
      ∃ e ∈ db.edges, e.from_node = k ∧ e.to_node = entry.1 ∧ e.id = entry.2.2 ∧
        e.is_active ≠ some false ∧
        entry.2.1 = (match e.adjusted_weight with
          | some a => a
          | none => e.weight) := by
    intro k entry hmem
    obtain ⟨e, hemem, hfrom, hto, hid, heff⟩ := hadj k entry (hneighbors k entry hmem)
    refine ⟨e, hemem, hfrom, hto, hid, ?_, ?_⟩
    · intro hact
      unfold _compute_effective_weight at heff
      rw [if_pos hact] at heff
      cases heff
    · unfold _compute_effective_weight at heff
      rcases hact : e.is_active = some false with _
      by_cases hact : e.is_active = some false
      · rw [if_pos hact] at heff
        cases heff
      · rw [if_neg hact] at heff
        rcases hadjw : e.adjusted_weight with _ | a
        · rw [hadjw] at heff
          rw [Option.some.injEq] at heff
          rw [heff]
        · rw [hadjw] at heff
          rw [Option.some.injEq] at heff
          rw [heff]
  refine ⟨build_has_node db city_id, ?_, hretained⟩
  intro e hemem hact
  constructor
  · rcases hlook : (build_graph_for_city db city_id).edges e.id with _ | e2
    · rfl
    · obtain ⟨he2mem, he2id, he2eff⟩ := hedges e.id e2 hlook
      have : e2 = e := hinj e2 he2mem e hemem (by rw [he2id])
      subst this
      exfalso
      apply he2eff
      unfold _compute_effective_weight
      rw [if_pos hact]
  · intro k entry hmem hentryid
    obtain ⟨e2, he2mem, _, _, he2id, he2act, _⟩ := hretained k entry hmem
    have : e2 = e := hinj e2 he2mem e hemem (by rw [he2id, hentryid])
    subst this
    exact he2act hact

/-! ## Concrete database snapshot used by witnesses (spec §8 scenario:
city 1 with vertices 1(A), 2(B), 3(C, hospital), edges A→B 5, B→C 5,
A→C 20, a roadblock on A→B active from time 0 with no end, and two
available ambulances at B and at A). -/

def demoEdge1 : EdgeRec := ⟨1, 1, 2, 5, none, none, some true⟩

def demoEdge2 : EdgeRec := ⟨2, 2, 3, 5, none, none, some true⟩

def demoEdge3 : EdgeRec := ⟨3, 1, 3, 20, none, none, some true⟩

def demoDB : DB :=
  { nodes := [⟨1, 0, 0, "intersection", some 1⟩, ⟨2, 1, 0, "intersection", some 1⟩,
      ⟨3, 2, 0, "hospital", some 1⟩]
    edges := [demoEdge1, demoEdge2, demoEdge3]
    roadblocks := [⟨some demoEdge1, 0, none⟩]
    traffic_updates := []
    ambulances := [⟨1, "available", some 2⟩, ⟨2, "available", some 1⟩]
    emergency_requests := [⟨1, some 1, some 3, "pending", none⟩]
    assignments := [] }

/-- Witness for C4: with the active roadblock on edge 1→2 of `demoDB`, the
surviving entry `(3, 20, 3)` of vertex 1 in the overlaid view is not the
blocked pair. -/
theorem C4_closures_removed_permanently_witness : ¬ ((1 : ℕ) = 1 ∧ (3 : ℕ) = 2) :=
  C4_closures_removed_permanently demoG demoDB 1 36000 ⟨some demoEdge1, 0, none⟩
    demoEdge1 (by decide) rfl (by decide) (Or.inl rfl)
    ⟨⟨1, 0, 0, "intersection", some 1⟩, by decide, rfl, rfl⟩
    ⟨⟨2, 1, 0, "intersection", some 1⟩, by decide, rfl, rfl⟩
    1 (3, 20, 3) (by decide)

/-- Witness for C5: at 10:00 UTC (not a peak hour) the congestion pass of
`apply_dynamic_traffic` leaves the closure-filtered adjacency of vertex 1
unchanged. -/
theorem C5_congestion_peak_gated_witness :
    (apply_dynamic_traffic demoG demoDB 1 36000).neighbors 1 =
      (removeClosures demoG (blockedPairs demoDB 1 36000)).neighbors 1 :=
  (C5_congestion_peak_gated demoG demoDB 1 36000).1 (by decide) 1

/-- Witness for C8: in the view built from `demoDB` for city 1, vertex 2 is
present exactly because node 2 belongs to city 1. -/
theorem C8_build_graph_for_city_witness :
    (build_graph_for_city demoDB 1).has_node 2 ↔
      ∃ n ∈ demoDB.nodes, n.id = 2 ∧ n.city_id = some 1 :=
  (C8_build_graph_for_city demoDB 1 (by decide)).1 2

/-! ## Ambulance selection (`ambulance_assignment.py`) -/

/-- `_compute_shortest_path_time` (ambulance_assignment.py lines 60-86):
run `find_nearest_hospital` with the single target as the "hospital set". -/
def _compute_shortest_path_time (g : GraphManager) (source_node_id target_node_id : ℕ) :
    Option ℚ :=
  let r := find_nearest_hospital g source_node_id [target_node_id]
  match r.best_hospital_id with
  | none => none
  | some _ => r.best_distance

/-- `AmbulanceAssignmentPlan` (ambulance_assignment.py lines 39-57);
candidates are (ambulance, eta) pairs as in `AmbulanceCandidate`. -/
structure AmbulanceAssignmentPlan where
  best_ambulance : Option AmbulanceRec
  best_eta : Option ℚ
  candidates : List (AmbulanceRec × ℚ)
  deriving DecidableEq, Repr

/-- The ambulance query of step 4 (ambulance_assignment.py lines 133-140):
status "available", joined to a node row in the destination's city. -/
def ambulanceInCity (db : DB) (city_id : ℕ) (a : AmbulanceRec) : Prop :=
  a.status = "available" ∧
    ∃ n ∈ db.nodes, a.current_node = some n.id ∧ n.city_id = some city_id

instance (db : DB) (city_id : ℕ) (a : AmbulanceRec) :
    Decidable (ambulanceInCity db city_id a) :=
  inferInstanceAs (Decidable (_ ∧ _))

/-- Python's `min(candidates, key=lambda c: c.eta_to_hospital)`: the fold
keeps the current best and replaces it only on a strictly smaller key, so
the first-encountered minimum wins ties. -/
def minByEta {α : Type} (candidates : List (α × ℚ)) : Option (α × ℚ) :=
  match candidates with
  | [] => none
  | c :: cs => some (List.foldl (fun best x => if x.2 < best.2 then x else best) c cs)

/-- Steps 3-5 of `select_best_ambulance_for_request`
(ambulance_assignment.py lines 130-159): build the city graph, fetch the
available ambulances of the city, and compute each one's ETA to the
hospital, skipping those without a current node or without a path. -/
def candidatesFor (db : DB) (city_id hospId : ℕ) : List (AmbulanceRec × ℚ) :=
  (db.ambulances.filter (fun a => decide (ambulanceInCity db city_id a))).filterMap
    (fun a =>
      match a.current_node with
      | none => none
      | some cn =>
        (_compute_shortest_path_time (build_graph_for_city db city_id) cn hospId).map
          (fun eta => (a, eta)))

/-- `select_best_ambulance_for_request` (ambulance_assignment.py
lines 89-171). -/
def select_best_ambulance_for_request (db : DB) (request_id : ℕ) :
    AmbulanceAssignmentPlan :=
  match db.emergency_requests.find? (fun r => decide (r.id = request_id)) with
  | none => ⟨none, none, []⟩
  | some req =>
    match req.destination_node with
    | none => ⟨none, none, []⟩
    | some destId =>
      match db.nodes.find? (fun n => decide (n.id = destId)) with
      | none => ⟨none, none, []⟩
      | some hospital_node =>
        match hospital_node.city_id with
        | none => ⟨none, none, []⟩
        | some city_id =>
          match minByEta (candidatesFor db city_id hospital_node.id) with
          | none => ⟨none, none, []⟩
          | some best => ⟨some best.1, some best.2, candidatesFor db city_id hospital_node.id⟩

theorem foldl_min_first {α : Type} :
    ∀ (xs : List (α × ℚ)) (acc : α × ℚ),
      ∃ l1 l2, acc :: xs =
          l1 ++ (List.foldl (fun best x => if x.2 < best.2 then x else best) acc xs) :: l2 ∧
        (∀ c ∈ l1,
          (List.foldl (fun best x => if x.2 < best.2 then x else best) acc xs).2 < c.2) ∧
        (∀ c ∈ acc :: xs,
          (List.foldl (fun best x => if x.2 < best.2 then x else best) acc xs).2 ≤ c.2) := by
  intro xs
  induction xs with
  | nil =>
    intro acc
    refine ⟨[], [], rfl, ?_, ?_⟩
    · intro c hc
      cases hc
    · intro c hc
      rw [List.mem_singleton] at hc
      rw [hc]
      exact le_refl _
  | cons x xs ih =>
    intro acc
    rw [List.foldl_cons]
    by_cases hx : x.2 < acc.2
    · rw [if_pos hx]
      obtain ⟨l1, l2, heq, hbefore, hall⟩ := ih x
      refine ⟨acc :: l1, l2, ?_, ?_, ?_⟩
      · rw [List.cons_append, ← heq]
      · intro c hc
        rcases List.mem_cons.mp hc with rfl | hc
        · exact lt_of_le_of_lt (hall x (List.mem_cons_self x xs)) hx
        · exact hbefore c hc
      · intro c hc
        rcases List.mem_cons.mp hc with rfl | hc
        · exact le_of_lt (lt_of_le_of_lt (hall x (List.mem_cons_self x xs)) hx)
        · exact hall c hc
    · rw [if_neg hx]
      obtain ⟨l1, l2, heq, hbefore, hall⟩ := ih acc
      rcases l1 with _ | ⟨h1, t1⟩
      · rw [List.nil_append] at heq
        have hhd : acc = List.foldl (fun best x => if x.2 < best.2 then x else best) acc xs := by
          have := congrArg (fun l => List.head? l) heq
          simpa using this
        refine ⟨[], x :: xs, ?_, ?_, ?_⟩
        · rw [List.nil_append, ← hhd]
        · intro c hc
          cases hc
        · intro c hc
          rcases List.mem_cons.mp hc with rfl | hc
          · rw [← hhd]
          · rcases List.mem_cons.mp hc with rfl | hc
            · rw [← hhd]
              exact le_of_not_lt hx
            · exact hall c (List.mem_cons_of_mem acc hc)
      · have hhd : h1 = acc := by
          have := congrArg (fun l => List.head? l) heq
          simpa using this.symm
        have htl : xs = t1 ++ (List.foldl (fun best x => if x.2 < best.2 then x else best) acc xs) :: l2 := by
          have := congrArg (fun l => List.tail l) heq
          simpa using this
        have hacc : (List.foldl (fun best x => if x.2 < best.2 then x else best) acc xs).2 < acc.2 := by
          have := hbefore h1 (List.mem_cons_self h1 t1)
          rw [hhd] at this
          exact this
        refine ⟨acc :: x :: t1, l2, ?_, ?_, ?_⟩
        · rw [List.cons_append, List.cons_append, ← htl]
        · intro c hc
          rcases List.mem_cons.mp hc with rfl | hc
          · exact hacc
          · rcases List.mem_cons.mp hc with rfl | hc
            · exact lt_of_lt_of_le hacc (le_of_not_lt hx)
            · exact hbefore c (List.mem_cons_of_mem h1 hc)
        · intro c hc
          rcases List.mem_cons.mp hc with rfl | hc
          · exact hall c (List.mem_cons_self c xs)
          · rcases List.mem_cons.mp hc with rfl | hc
            · exact le_of_lt (lt_of_lt_of_le hacc (le_of_not_lt hx))
            · exact hall c (List.mem_cons_of_mem acc hc)

theorem minByEta_none_iff {α : Type} (l : List (α × ℚ)) :
    minByEta l = none ↔ l = [] := by
  cases l with
  | nil => simp [minByEta]
  | cons c cs =>
    simp only [minByEta]
    constructor
    · intro h
      cases h
    · intro h
      exact absurd h (List.cons_ne_nil c cs)

theorem minByEta_first_min {α : Type} {l : List (α × ℚ)} {b : α × ℚ}
    (h : minByEta l = some b) :
    ∃ l1 l2, l = l1 ++ b :: l2 ∧ (∀ c ∈ l1, b.2 < c.2) ∧ ∀ c ∈ l, b.2 ≤ c.2 := by
  rcases l with _ | ⟨c, cs⟩
  · cases h
  · simp only [minByEta, Option.some.injEq] at h
    obtain ⟨l1, l2, heq, hbefore, hall⟩ := foldl_min_first cs c
    rw [h] at heq hbefore hall
    exact ⟨l1, l2, heq, hbefore, hall⟩

/-- `_compute_shortest_path_time` agrees with the first component of
`shortest_path_and_distance` on closed views with non-negative weights. -/
theorem cst_eq_spd_fst {g : GraphManager} (hw : NonnegWeights g)
    (hclosed : ClosedView g) (s t : ℕ) :
    _compute_shortest_path_time g s t = (shortest_path_and_distance g s t).1 := by
  by_cases hs : g.has_node s
  · have hded : ([t] : List ℕ).dedup = [t] := by simp
    unfold _compute_shortest_path_time
    rw [fnh_eq g s [t] hs, hded]
    rw [spd_fst_eq_loopdist hw hclosed hs t]
    unfold bestScan
    rw [List.foldl_cons, List.foldl_nil]
    rcases hdt : (dijkstraLoop g s none (initState s)).dist t with _ | dv
    · have hstep : scanStep (dijkstraLoop g s none (initState s)).dist (none, none) t =
          (none, none) := by
        unfold scanStep
        rw [hdt]
      rw [hstep]
    · have hstep : scanStep (dijkstraLoop g s none (initState s)).dist (none, none) t =
          (some t, some dv) := by
        unfold scanStep
        rw [hdt]
      rw [hstep]
  · have hns : ¬ (g.has_node s ∧ g.has_node t) := fun h => hs h.1
    rw [spd_not_node hns]
    unfold _compute_shortest_path_time find_nearest_hospital
    rw [if_neg hs]

/-- C3: with the request, destination node and its city all resolved,
`select_best_ambulance_for_request` considers exactly the available
ambulances whose current node lies in the destination's city and from which
a path to the destination exists (computing each ETA as the shortest-path
distance from the ambulance's vertex to the destination), returns no winner
exactly when the candidate list is empty, and otherwise picks the
first-encountered minimum-ETA candidate. -/
theorem C3_select_best_ambulance (db : DB) (request_id : ℕ)
    (req : EmergencyRequestRec)
    (hreq : db.emergency_requests.find? (fun r => decide (r.id = request_id)) = some req)
    (destId : ℕ) (hdest : req.destination_node = some destId)
    (hospital : NodeRec)
    (hhosp : db.nodes.find? (fun n => decide (n.id = destId)) = some hospital)
    (city_id : ℕ) (hcity : hospital.city_id = some city_id)
    (hw : NonnegWeights (build_graph_for_city db city_id)) :
    (∀ a eta, (a, eta) ∈ (select_best_ambulance_for_request db request_id).candidates ↔
      (a ∈ db.ambulances ∧ a.status = "available" ∧
        (∃ n ∈ db.nodes, a.current_node = some n.id ∧ n.city_id = some city_id)) ∧
      (∃ cn, a.current_node = some cn ∧
        (shortest_path_and_distance (build_graph_for_city db city_id)
          cn hospital.id).1 = some eta)) ∧
    ((select_best_ambulance_for_request db request_id).best_ambulance = none ↔
      (select_best_ambulance_for_request db request_id).candidates = []) ∧
    (∀ a eta, (select_best_ambulance_for_request db request_id).best_ambulance = some a →
      (select_best_ambulance_for_request db request_id).best_eta = some eta →
      ∃ l1 l2, (select_best_ambulance_for_request db request_id).candidates =
          l1 ++ (a, eta) :: l2 ∧
        (∀ c ∈ l1, eta < c.2) ∧
        ∀ c ∈ (select_best_ambulance_for_request db request_id).candidates,
          eta ≤ c.2) := by
  have hplan : select_best_ambulance_for_request db request_id =
      (match minByEta (candidatesFor db city_id hospital.id) with
       | none => ⟨none, none, []⟩
       | some best => ⟨some best.1, some best.2, candidatesFor db city_id hospital.id⟩) := by
    unfold select_best_ambulance_for_request
    rw [hreq]
    dsimp only
    rw [hdest]
    dsimp only
    rw [hhosp]
    dsimp only
    rw [hcity]
  have hcand : ∀ a eta, (a, eta) ∈ candidatesFor db city_id hospital.id ↔
      (a ∈ db.ambulances ∧ a.status = "available" ∧
        (∃ n ∈ db.nodes, a.current_node = some n.id ∧ n.city_id = some city_id)) ∧
      (∃ cn, a.current_node = some cn ∧
        (shortest_path_and_distance (build_graph_for_city db city_id)
          cn hospital.id).1 = some eta) := by
    intro a eta
    unfold candidatesFor
    rw [List.mem_filterMap]
    constructor
    · rintro ⟨a2, ha2mem, ha2⟩
      obtain ⟨ha2db, ha2city⟩ := List.mem_filter.mp ha2mem
      rw [decide_eq_true_eq] at ha2city
      rcases hcn : a2.current_node with _ | cn
      · rw [hcn] at ha2
        cases ha2
      · rw [hcn] at ha2
        dsimp only at ha2
        rcases hcst : _compute_shortest_path_time (build_graph_for_city db city_id)
            cn hospital.id with _ | eta2
        · rw [hcst] at ha2
          cases ha2
        · rw [hcst] at ha2
          rw [Option.map_some', Option.some.injEq, Prod.mk.injEq] at ha2
          obtain ⟨rfl, rfl⟩ := ha2
          refine ⟨⟨ha2db, ha2city.1, ha2city.2⟩, cn, hcn, ?_⟩
          rw [← cst_eq_spd_fst hw (build_closed db city_id)]
          exact hcst
    · rintro ⟨⟨hadb, hastatus, hacity⟩, cn, hcn, hspd⟩
      refine ⟨a, List.mem_filter.mpr ⟨hadb, ?_⟩, ?_⟩
      · rw [decide_eq_true_eq]
        exact ⟨hastatus, hacity⟩
      · rw [hcn]
        dsimp only
        rw [← cst_eq_spd_fst hw (build_closed db city_id)] at hspd
        rw [hspd]
        rfl
  rcases hmin : minByEta (candidatesFor db city_id hospital.id) with _ | best
  · have hempty : candidatesFor db city_id hospital.id = [] :=
      (minByEta_none_iff _).mp hmin
    rw [hplan, hmin]
    dsimp only
    refine ⟨?_, ⟨fun _ => rfl, fun _ => rfl⟩, ?_⟩
    · intro a eta
      constructor
      · intro h
        cases h
      · intro h
        have := (hcand a eta).mpr h
        rw [hempty] at this
        cases this
    · intro a eta ha _
      cases ha
  · rw [hplan, hmin]
    dsimp only
    refine ⟨hcand, ?_, ?_⟩
    · constructor
      · intro h
        cases h
      · intro h
        rw [h] at hmin
        rw [(minByEta_none_iff ([] : List (AmbulanceRec × ℚ))).mpr rfl] at hmin
        cases hmin
    · intro a eta ha heta
      rw [Option.some.injEq] at ha heta
      obtain ⟨l1, l2, heq, hbefore, hall⟩ := minByEta_first_min hmin
      have hbesteq : (a, eta) = best := by
        rw [← ha, ← heta]
      rw [← hbesteq] at heq hbefore hall
      exact ⟨l1, l2, heq, hbefore, hall⟩

theorem demoBuild_neighbors1 :
    (build_graph_for_city demoDB 1).neighbors 1 = [(2, 5, 1), (3, 20, 3)] := by decide

theorem demoBuild_neighbors2 :
    (build_graph_for_city demoDB 1).neighbors 2 = [(3, 5, 2)] := by decide

theorem demoBuild_neighbors3 :
    (build_graph_for_city demoDB 1).neighbors 3 = [] := by decide

theorem demoBuild_nonneg : NonnegWeights (build_graph_for_city demoDB 1) := by
  intro u e he
  obtain ⟨hu, _⟩ := mem_neighbors_elim he
  rw [build_adjKeys] at hu
  have hids : cityNodeIds demoDB 1 = [1, 2, 3] := by decide
  rw [hids] at hu
  have hu3 : u = 1 ∨ u = 2 ∨ u = 3 := by simpa using hu
  rcases hu3 with rfl | rfl | rfl
  · rw [demoBuild_neighbors1] at he
    rcases (by simpa using he : e = (2, 5, 1) ∨ e = (3, 20, 3)) with rfl | rfl <;> norm_num
  · rw [demoBuild_neighbors2] at he
    rw [(by simpa using he : e = (3, 5, 2))]
    norm_num
  · rw [demoBuild_neighbors3] at he
    cases he

theorem demo_cst_from2 :
    _compute_shortest_path_time (build_graph_for_city demoDB 1) 2 3 = some 5 := by
  unfold _compute_shortest_path_time
  rw [fnh_eq (build_graph_for_city demoDB 1) 2 [3] (by decide)]
  rw [@dijkstraLoop_eq_getD (build_graph_for_city demoDB 1) 2 none 10 (initState 2)
    (by norm_num [dijkstraLoopFuel, popMin, pairLe, relaxAll, relax, initState,
      demoBuild_neighbors1, demoBuild_neighbors2, demoBuild_neighbors3,
      demoEdge1, demoEdge2, demoEdge3, option_none_ne_some])]
  have hded : ([3] : List ℕ).dedup = [3] := by decide
  rw [hded]
  norm_num [bestScan, scanStep, dijkstraLoopFuel, popMin, pairLe, relaxAll, relax,
    initState, demoBuild_neighbors1, demoBuild_neighbors2, demoBuild_neighbors3,
    demoEdge1, demoEdge2, demoEdge3, option_none_ne_some]

theorem demo_cst_from1 :
    _compute_shortest_path_time (build_graph_for_city demoDB 1) 1 3 = some 10 := by
  unfold _compute_shortest_path_time
  rw [fnh_eq (build_graph_for_city demoDB 1) 1 [3] (by decide)]
  rw [@dijkstraLoop_eq_getD (build_graph_for_city demoDB 1) 1 none 10 (initState 1)
    (by norm_num [dijkstraLoopFuel, popMin, pairLe, relaxAll, relax, initState,
      demoBuild_neighbors1, demoBuild_neighbors2, demoBuild_neighbors3,
      demoEdge1, demoEdge2, demoEdge3, option_none_ne_some])]
  have hded : ([3] : List ℕ).dedup = [3] := by decide
  rw [hded]
  norm_num [bestScan, scanStep, dijkstraLoopFuel, popMin, pairLe, relaxAll, relax,
    initState, demoBuild_neighbors1, demoBuild_neighbors2, demoBuild_neighbors3,
    demoEdge1, demoEdge2, demoEdge3, option_none_ne_some]

theorem demo_candidates :
    candidatesFor demoDB 1 3 =
      [(⟨1, "available", some 2⟩, 5), (⟨2, "available", some 1⟩, 10)] := by
  unfold candidatesFor
  have hfilter : demoDB.ambulances.filter (fun a => decide (ambulanceInCity demoDB 1 a)) =
      [⟨1, "available", some 2⟩, ⟨2, "available", some 1⟩] := by decide
  rw [hfilter]
  norm_num [List.filterMap_cons, List.filterMap_nil, demo_cst_from2, demo_cst_from1]

/-- The spec §8 vehicle-selection scenario: the ambulance at B (node 2,
ETA 5) wins over the one at A (node 1, ETA 10). -/
theorem demo_selection_scenario :
    (select_best_ambulance_for_request demoDB 1).best_ambulance =
        some ⟨1, "available", some 2⟩ ∧
      (select_best_ambulance_for_request demoDB 1).best_eta = some 5 := by
  have hfreq : demoDB.emergency_requests.find? (fun r => decide (r.id = 1)) =
      some ⟨1, some 1, some 3, "pending", none⟩ := by decide
  have hfnode : demoDB.nodes.find? (fun n => decide (n.id = 3)) =
      some ⟨3, 2, 0, "hospital", some 1⟩ := by decide
  unfold select_best_ambulance_for_request
  rw [hfreq]
  dsimp only
  rw [hfnode]
  dsimp only
  rw [demo_candidates]
  norm_num [minByEta]

/-- Witness for C3 on the spec §8 scenario database. -/
theorem C3_select_best_ambulance_witness :
    ((select_best_ambulance_for_request demoDB 1).best_ambulance = none ↔
      (select_best_ambulance_for_request demoDB 1).candidates = []) ∧
    (select_best_ambulance_for_request demoDB 1).best_ambulance =
      some ⟨1, "available", some 2⟩ :=
  ⟨(C3_select_best_ambulance demoDB 1 ⟨1, some 1, some 3, "pending", none⟩ (by decide)
      3 rfl ⟨3, 2, 0, "hospital", some 1⟩ (by decide) 1 rfl demoBuild_nonneg).2.1,
    demo_selection_scenario.1⟩

/-! ## Assignment creation (C7) -/

/-- Modelled from the spec: `create_assignment_for_request` is imported from
`app.core.routing.ambulance_assignment` by `routers/routing.py` and by the
tests, but its definition is absent from the source tree.  Modelled from
spec §4.4: before creating a new assignment, check whether a non-terminal
assignment (status `assigned` or `in-transit`, per the lifecycle of §3 and
the query in simulation.py lines 30-33) already exists for the request; if
so decline as a no-op; otherwise run the vehicle selection, create one
assignment row with status `assigned`, and mark the chosen vehicle
unavailable as one logical unit.  The returned full path of the winner is
not modelled (it does not affect the stored rows). -/
def create_assignment_for_request (db : DB) (request_id : ℕ) :
    Option AssignmentRec × DB :=
  if db.assignments.any (fun a =>
      decide (a.emergency_request_id = request_id ∧
        (a.status = "assigned" ∨ a.status = "in-transit"))) then
    (none, db)
  else
    match (select_best_ambulance_for_request db request_id).best_ambulance,
        (select_best_ambulance_for_request db request_id).best_eta with
    | some amb, some eta =>
      (some ⟨(db.assignments.map (fun a => a.id)).foldr max 0 + 1,
          amb.id, request_id, eta, "assigned"⟩,
        { db with
          assignments := db.assignments ++
            [⟨(db.assignments.map (fun a => a.id)).foldr max 0 + 1,
              amb.id, request_id, eta, "assigned"⟩]
          ambulances := db.ambulances.map (fun a =>
            if a.id = amb.id then ⟨a.id, "assigned", a.current_node⟩ else a) })
    | _, _ => (none, db)

/-- C7: assignment creation is idempotent at the request level — after a
successful first call, a second call for the same request is a declined
no-op (result `none`, store unchanged), and if the request had no
assignment row before, it has exactly one afterwards. -/
theorem C7_assignment_idempotent (db : DB) (request_id : ℕ) (a : AssignmentRec)
    (h1 : (create_assignment_for_request db request_id).1 = some a) :
    (create_assignment_for_request
        ((create_assignment_for_request db request_id).2) request_id).1 = none ∧
    (create_assignment_for_request
        ((create_assignment_for_request db request_id).2) request_id).2 =
      (create_assignment_for_request db request_id).2 ∧
    (db.assignments.filter
        (fun x => decide (x.emergency_request_id = request_id)) = [] →
      (((create_assignment_for_request db request_id).2).assignments.filter
        (fun x => decide (x.emergency_request_id = request_id))).length = 1) := by
  unfold create_assignment_for_request at h1 ⊢
  by_cases hany : db.assignments.any (fun a =>
      decide (a.emergency_request_id = request_id ∧
        (a.status = "assigned" ∨ a.status = "in-transit"))) = true
  · rw [if_pos hany] at h1
    cases h1
  · rw [if_neg hany] at h1 ⊢
    rcases hamb : (select_best_ambulance_for_request db request_id).best_ambulance
        with _ | amb <;>
      rcases heta : (select_best_ambulance_for_request db request_id).best_eta
          with _ | eta
    · rw [hamb, heta] at h1
      dsimp only at h1
      cases h1
    · rw [hamb, heta] at h1
      dsimp only at h1
      cases h1
    · rw [hamb, heta] at h1
      dsimp only at h1
      cases h1
    · rw [hamb, heta] at h1
      dsimp only at h1 ⊢
      have hany2 : (db.assignments ++
          [(⟨(db.assignments.map (fun a => a.id)).foldr max 0 + 1,
            amb.id, request_id, eta, "assigned"⟩ : AssignmentRec)]).any (fun a =>
          decide (a.emergency_request_id = request_id ∧
            (a.status = "assigned" ∨ a.status = "in-transit"))) = true := by
        rw [List.any_eq_true]
        refine ⟨(⟨(db.assignments.map (fun a => a.id)).foldr max 0 + 1,
          amb.id, request_id, eta, "assigned"⟩ : AssignmentRec),
          List.mem_append_right _ (List.mem_singleton.mpr rfl), ?_⟩
        rw [decide_eq_true_eq]
        exact ⟨rfl, Or.inl rfl⟩
      rw [if_pos hany2]
      refine ⟨rfl, rfl, ?_⟩
      intro hempty
      rw [List.filter_append, hempty, List.nil_append]
      have hsingle : (List.filter (fun x => decide (x.emergency_request_id = request_id))
          [(⟨(db.assignments.map (fun a => a.id)).foldr max 0 + 1,
            amb.id, request_id, eta, "assigned"⟩ : AssignmentRec)]) =
          [⟨(db.assignments.map (fun a => a.id)).foldr max 0 + 1,
            amb.id, request_id, eta, "assigned"⟩] := by
        rw [List.filter_singleton]
        rw [decide_eq_true rfl]
        rfl
      rw [hsingle]
      rfl

/-- Witness for C7: on the scenario database the first call creates the
assignment row for ambulance 1 with ETA 5, and the second call declines. -/
theorem C7_assignment_idempotent_witness :
    (create_assignment_for_request
        ((create_assignment_for_request demoDB 1).2) 1).1 = none ∧
    (create_assignment_for_request
        ((create_assignment_for_request demoDB 1).2) 1).2 =
      (create_assignment_for_request demoDB 1).2 ∧
    (demoDB.assignments.filter (fun x => decide (x.emergency_request_id = 1)) = [] →
      (((create_assignment_for_request demoDB 1).2).assignments.filter
        (fun x => decide (x.emergency_request_id = 1))).length = 1) := by
  apply C7_assignment_idempotent demoDB 1 ⟨1, 1, 1, 5, "assigned"⟩
  unfold create_assignment_for_request
  rw [if_neg (by decide)]
  rw [demo_selection_scenario.1, demo_selection_scenario.2]
  rfl

/-! ## Movement simulator (`simulation.py`) -/

/-- Python's `round` (banker's rounding, half to even). -/
def roundHalfEven (x : ℚ) : ℤ :=
  if x - ⌊x⌋ < 1 / 2 then ⌊x⌋
  else if 1 / 2 < x - ⌊x⌋ then ⌊x⌋ + 1
  else if ⌊x⌋ % 2 = 0 then ⌊x⌋ else ⌊x⌋ + 1

/-- The per-node dwell time of every non-final node (simulation.py lines
46-51 and 66): `max(1, int(round(total_seconds / total_steps)))`. -/
def stepSeconds (n total : ℕ) : ℕ :=
  max 1 (roundHalfEven ((total : ℚ) / (max 1 n : ℕ))).toNat

/-- The dwell times of the nodes of a route of length `n` over
`total` seconds (simulation.py lines 56-66): each non-final node dwells
`stepSeconds`, and the final node absorbs the remaining ETA
(`max(1, remaining_eta_seconds)`, where the remaining ETA decrements once
per tick and is floored at 0 — lines 64 and 92). -/
def dwellDurations (n total : ℕ) : List ℕ :=
  (List.range n).map (fun i =>
    if i = n - 1 then max 1 (total - (n - 1) * stepSeconds n total)
    else stepSeconds n total)

/-- A WebSocket update payload (simulation.py lines 77-84). -/
structure SimPayload where
  ambulance_id : ℕ
  lat : ℚ
  lng : ℚ
  status : String
  progress : ℚ
  node_index : ℕ
  eta_seconds : ℕ
  deriving DecidableEq, Repr

/-- The persisted rows touched by the simulator. -/
structure SimState where
  requests : List EmergencyRequestRec
  assignments : List AssignmentRec
  ambulances : List AmbulanceRec
  deriving DecidableEq, Repr

/-- The per-second broadcasts while dwelling at node `i` (simulation.py
lines 69-92). -/
def nodeTicks (amb_id total_steps total_seconds i ticksBefore : ℕ) (node : NodeRec)
    (dur : ℕ) : List SimPayload :=
  (List.range dur).map (fun second =>
    { ambulance_id := amb_id
      lat := node.lat
      lng := node.lon
      status := if i = total_steps - 1 ∧ second = dur - 1 then "arrived" else "in-transit"
      progress := min 1 (((i : ℚ) + (second : ℚ) / (dur : ℚ) + 1) / (total_steps : ℚ))
      node_index := i
      eta_seconds := total_seconds - (ticksBefore + second) })

/-- All broadcasts of the per-node loop (simulation.py lines 56-92). -/
def simEvents (amb_id total_steps total_seconds : ℕ) :
    List NodeRec → List ℕ → ℕ → ℕ → List SimPayload
  | [], _, _, _ => []
  | _ :: _, [], _, _ => []
  | node :: nodes, dur :: durs, i, ticksBefore =>
    nodeTicks amb_id total_steps total_seconds i ticksBefore node dur ++
      simEvents amb_id total_steps total_seconds nodes durs (i + 1) (ticksBefore + dur)

/-- `simulate_ambulance_movement` (simulation.py lines 10-132), as a pure
state transformer: given the persisted rows, the request id, the route and
the total ETA in minutes, it returns the updated rows and the list of
broadcast payloads.  `completion_time` models `datetime.utcnow()` at
arrival.  An empty route returns immediately (line 25-26); a missing
non-terminal assignment or ambulance row returns with no changes
(lines 30-40). -/
def simulate_ambulance_movement (st : SimState) (request_id : ℕ)
    (route_nodes : List NodeRec) (total_eta_minutes : ℚ) (completion_time : ℕ) :
    SimState × List SimPayload :=
  if route_nodes = [] then (st, [])
  else
    match st.assignments.find? (fun a =>
        decide (a.emergency_request_id = request_id ∧
          (a.status = "assigned" ∨ a.status = "in-transit"))) with
    | none => (st, [])
    | some assignment =>
      match st.ambulances.find? (fun amb => decide (amb.id = assignment.ambulance_id)) with
      | none => (st, [])
      | some _ =>
        let st1 : SimState :=
          { st with assignments := st.assignments.map (fun a =>
              if a.id = assignment.id then
                ⟨a.id, a.ambulance_id, a.emergency_request_id, a.eta, "in-transit"⟩
              else a) }
        let total_steps := max 1 route_nodes.length
        let total_seconds := max 1 (roundHalfEven (total_eta_minutes * 60)).toNat
        let events := simEvents assignment.ambulance_id total_steps total_seconds
          route_nodes (dwellDurations route_nodes.length total_seconds) 0 0
        let st2 : SimState :=
          { st1 with ambulances := st1.ambulances.map (fun amb =>
              if amb.id = assignment.ambulance_id then
                ⟨amb.id, amb.status,
                  (route_nodes.getLast?).map (fun node => node.id)⟩
              else amb) }
        match st2.requests.find? (fun r => decide (r.id = request_id)),
            st2.assignments.find? (fun a =>
              decide (a.emergency_request_id = request_id ∧
                a.ambulance_id = assignment.ambulance_id)),
            st2.ambulances.find? (fun amb => decide (amb.id = assignment.ambulance_id)) with
        | some _, some asg2, some _ =>
          let st3 : SimState :=
            { requests := st2.requests.map (fun r =>
                if r.id = request_id then
                  ⟨r.id, r.source_node, r.destination_node, "completed",
                    some completion_time⟩
                else r)
              assignments := st2.assignments.map (fun a =>
                if a.id = asg2.id then
                  ⟨a.id, a.ambulance_id, a.emergency_request_id, a.eta, "completed"⟩
                else a)
              ambulances := st2.ambulances.map (fun amb =>
                if amb.id = assignment.ambulance_id then
                  ⟨amb.id, "available", amb.current_node⟩
                else amb) }
          let final : SimPayload :=
            { ambulance_id := assignment.ambulance_id
              lat := ((route_nodes.getLast?).map (fun node => node.lat)).getD 0
              lng := ((route_nodes.getLast?).map (fun node => node.lon)).getD 0
              status := "completed"
              progress := 1
              node_index := total_steps - 1
              eta_seconds := 0 }
          (st3, events ++ [final])
        | _, _, _ => (st2, events)

/-- C10: calling the simulator with an empty route returns immediately —
no progress or completion events are emitted, and the emergency request,
assignment and ambulance rows are all left unchanged. -/
theorem C10_empty_route_noop (st : SimState) (request_id : ℕ)
    (total_eta_minutes : ℚ) (completion_time : ℕ) :
    simulate_ambulance_movement st request_id [] total_eta_minutes completion_time =
      (st, []) := by
  unfold simulate_ambulance_movement
  rw [if_pos rfl]

/-- C9 counterexample: a route of 4 vertices with a total duration of
6 seconds (`total_eta_minutes = 0.1`) gets dwell times `[2, 2, 2, 1]` — the
three non-final vertices each dwell `max(1, round(6/4)) = 2` ticks, leaving
no remainder for the final vertex, which still dwells its minimum 1 tick —
so the dwell ticks sum to 7, not 6. -/
theorem C9_dwell_sum_counterexample :
    (dwellDurations 4 6).sum = 7 ∧ (dwellDurations 4 6).sum ≠ 6 := by
  have h : dwellDurations 4 6 = [2, 2, 2, 1] := by
    have hq : stepSeconds 4 6 = 2 := by
      unfold stepSeconds roundHalfEven
      norm_num
      rfl
    unfold dwellDurations
    rw [hq]
    rfl
  rw [h]
  norm_num

/-- C9 amended: for a route of `n ≥ 1` vertices, each non-final vertex
dwells `stepSeconds n total = max(1, round(total / n))` ticks and the final
vertex dwells `max(1, total - (n - 1) * stepSeconds n total)` ticks, so the
total dwell ticks are `(n - 1) * stepSeconds n total + max 1 (total -
(n - 1) * stepSeconds n total)`; this equals the total duration exactly iff
the non-final vertices' ticks fall strictly below the total. -/
theorem C9_dwell_sum (n total : ℕ) (hn : 1 ≤ n) :
    (dwellDurations n total).sum =
      (n - 1) * stepSeconds n total +
        max 1 (total - (n - 1) * stepSeconds n total) ∧
    ((dwellDurations n total).sum = total ↔
      (n - 1) * stepSeconds n total < total) := by
  obtain ⟨m, rfl⟩ : ∃ m, n = m + 1 := ⟨n - 1, (Nat.succ_pred_eq_of_pos hn).symm⟩
  have hsum : (dwellDurations (m + 1) total).sum =
      m * stepSeconds (m + 1) total +
        max 1 (total - m * stepSeconds (m + 1) total) := by
    unfold dwellDurations
    rw [List.range_succ, List.map_append, List.sum_append]
    have hconst : (List.range m).map (fun i =>
        if i = m + 1 - 1 then max 1 (total - (m + 1 - 1) * stepSeconds (m + 1) total)
        else stepSeconds (m + 1) total) =
        (List.range m).map (fun _ => stepSeconds (m + 1) total) := by
      apply List.map_congr_left
      intro i hi
      rw [List.mem_range] at hi
      rw [if_neg]
      omega
    rw [hconst]
    have hconstsum : ((List.range m).map (fun _ => stepSeconds (m + 1) total)).sum =
        m * stepSeconds (m + 1) total := by
      rw [List.map_const']
      rw [List.sum_replicate, List.length_range]
      rw [smul_eq_mul]
    rw [hconstsum]
    have hlast : ([m].map (fun i =>
        if i = m + 1 - 1 then max 1 (total - (m + 1 - 1) * stepSeconds (m + 1) total)
        else stepSeconds (m + 1) total)).sum =
        max 1 (total - m * stepSeconds (m + 1) total) := by
      simp
    rw [hlast]
  have hm1 : m + 1 - 1 = m := rfl
  rw [hm1]
  refine ⟨hsum, ?_⟩
  rw [hsum]
  omega

theorem C9_dwell_sum_witness :
    (dwellDurations 3 6).sum =
      (3 - 1) * stepSeconds 3 6 + max 1 (6 - (3 - 1) * stepSeconds 3 6) ∧
    ((dwellDurations 3 6).sum = 6 ↔ (3 - 1) * stepSeconds 3 6 < 6) :=
  C9_dwell_sum 3 6 (by decide)

end AmbulanceRouting

